import Mathlib

/-!
# Verification of `plagiarismdetect.c`

A shallow embedding of the tokenizer, the structural encoder, the five
similarity metrics and the aggregator of `src/plagiarismdetect.c`.

Modelling conventions.

* A C string is a `List Char`; `strlen` stops at the first NUL character.
  The `<ctype.h>` predicates are those of the C locale, so a character
  outside ASCII belongs to no class.
* `tokenize` copies a word into the buffer `char id[MAX_TOKEN_LEN]` without a
  bound.  A word of `MAX_TOKEN_LEN` or more characters writes past the
  buffer, after which the program has no defined result: `tokenize` and
  `compare` return `none` there and `some` result everywhere else.
* `TokenList`, `StructureList`, `NgramSet` and `FreqMap` are lists; their
  `count`/`size` field is the length of the list.  The capacity checks
  against `MAX_TOKENS` are kept.
* `int` values are natural numbers: every count is bounded by `MAX_TOKENS`
  and no product exceeds `MAX_TOKENS * MAX_TOKENS`, so nothing wraps.
* `double` values are real numbers.  `lcsDistance`, `editDistance`,
  `structureSimilarity` and `ngramSimilarity` end in one division of two
  integers, and `compare` in a weighted sum; these are taken exactly, so a
  score such as `3 / 5` stands for the `double` nearest to it.  Everything
  below that division is integer arithmetic and is computable.
* `tokenFrequencySimilarity` chains four `double` operations, two square
  roots, a product and a quotient, and their rounding shows in the result:
  each of them is rounded by `roundDouble` to the nearest value with a
  significand of 53 bits, ties to even.
-/

namespace PlagiarismDetect

/-! ## Constants and token types -/

def MAX_TOKENS : Nat := 10000

def MAX_TOKEN_LEN : Nat := 256

inductive TokenType where
  | KEYWORD
  | IDENTIFIER
  | OPERATOR
  | LITERAL
  | SEPARATOR
  | COMMENT
  | WHITESPACE
  | UNKNOWN
  deriving DecidableEq, Repr

structure Token where
  type : TokenType
  value : List Char
  deriving DecidableEq, Repr

abbrev TokenList := List Token

/-! ## Character classes -/

/-- The NUL character that terminates a C string. -/
def NUL : Char := Char.ofNat 0

/-- The double quote character. -/
def DQUOTE : Char := Char.ofNat 34

/-- The single quote character. -/
def SQUOTE : Char := Char.ofNat 39

/-- The backslash character. -/
def BACKSLASH : Char := Char.ofNat 92

/-- The newline character. -/
def NEWLINE : Char := Char.ofNat 10

/-- C locale `isspace`: space, `\t`, `\n`, `\v`, `\f`, `\r`. -/
def isspace (c : Char) : Bool :=
  c.toNat == 32 || (9 ≤ c.toNat && c.toNat ≤ 13)

/-- C locale `isdigit`. -/
def isdigit (c : Char) : Bool :=
  48 ≤ c.toNat && c.toNat ≤ 57

/-- C locale `isalpha`. -/
def isalpha (c : Char) : Bool :=
  (65 ≤ c.toNat && c.toNat ≤ 90) || (97 ≤ c.toNat && c.toNat ≤ 122)

/-- C locale `isalnum`. -/
def isalnum (c : Char) : Bool :=
  isalpha c || isdigit c

/-- The bytes of a C string: everything before the first NUL (`strlen`). -/
def cstr (code : List Char) : List Char :=
  code.takeWhile (fun c => c != NUL)

/-! ## Keyword checker -/

def keywords : List (List Char) :=
  ["auto".toList, "break".toList, "case".toList, "char".toList, "const".toList,
   "continue".toList, "default".toList, "do".toList, "double".toList, "else".toList,
   "enum".toList, "extern".toList, "float".toList, "for".toList, "goto".toList,
   "if".toList, "int".toList, "long".toList, "register".toList, "return".toList,
   "short".toList, "signed".toList, "sizeof".toList, "static".toList, "struct".toList,
   "switch".toList, "typedef".toList, "union".toList, "unsigned".toList, "void".toList,
   "volatile".toList, "while".toList, "inline".toList]

def isKeyword (str : List Char) : Bool :=
  keywords.any (fun k => str == k)

def isOperatorChar (c : Char) : Bool :=
  c == '+' || c == '-' || c == '*' || c == '/' || c == '%' ||
  c == '=' || c == '<' || c == '>' || c == '!' || c == '&' ||
  c == '|' || c == '^' || c == '~' || c == '.'

def isSeparator (c : Char) : Bool :=
  c == '(' || c == ')' || c == '{' || c == '}' ||
  c == '[' || c == ']' || c == ';' || c == ',' || c == ':'

/-! ## Tokenizer -/

/-- Appends a token unless the list is full; `strncpy` keeps at most
`MAX_TOKEN_LEN - 1` characters of the value. -/
def addToken (list : TokenList) (type : TokenType) (value : List Char) : TokenList :=
  if list.length ≥ MAX_TOKENS then list
  else list ++ [⟨type, value.take (MAX_TOKEN_LEN - 1)⟩]

/-- The index after a `//` comment: `while (idx < len && code[idx] != '\n') idx++`. -/
def skipLineComment (cs : List Char) : List Char :=
  cs.dropWhile (fun c => c != NEWLINE)

/-- The index after a `/* */` comment, started behind the opening `/*`:
`while (idx + 1 < len && !(code[idx] == '*' && code[idx+1] == '/')) idx++; idx += 2`.
When fewer than two characters remain the index passes the end of the text. -/
def skipBlockComment : List Char → List Char
  | c :: d :: rest =>
    if c == '*' && d == '/' then rest else skipBlockComment (d :: rest)
  | _ => []

/-- The index after a string or character literal, started behind the opening
quote: a backslash that is not the last character skips the next character,
and the closing quote is consumed when there is one. -/
def skipString (quote : Char) : List Char → List Char
  | [] => []
  | c :: rest =>
    if c == quote then rest
    else if c == BACKSLASH then
      match rest with
      | [] => []
      | _ :: rest2 => skipString quote rest2
    else skipString quote rest

/-- The characters of a number literal: digits and `.`. -/
def isNumChar (c : Char) : Bool :=
  isdigit c || c == '.'

/-- The characters of an identifier: alphanumerics and `_`. -/
def isIdChar (c : Char) : Bool :=
  isalnum c || c == '_'

/-- One iteration of the `while (idx < len)` loop of `tokenize`, on the text
from `idx` on: the text from the new `idx` on and the new token list.  The
identifier branch copies the word and a terminating NUL into `id`, which
holds `MAX_TOKEN_LEN` characters: a word of `MAX_TOKEN_LEN` or more
characters overruns it, and the result is `none`. -/
def tokenizeStep (cs : List Char) (list : TokenList) : Option (List Char × TokenList) :=
  match cs with
  | [] => some ([], list)
  | c :: rest =>
    if isspace c then some (rest, list)
    else if c == '/' && rest.head? == some '/' then
      some (skipLineComment rest.tail, list)
    else if c == '/' && rest.head? == some '*' then
      some (skipBlockComment rest.tail, list)
    else if c == DQUOTE || c == SQUOTE then
      some (skipString c rest, addToken list TokenType.LITERAL "STR".toList)
    else if isdigit c then
      some (cs.dropWhile isNumChar, addToken list TokenType.LITERAL "NUM".toList)
    else if isalpha c || c == '_' then
      let id := cs.takeWhile isIdChar
      if id.length ≥ MAX_TOKEN_LEN then none
      else
        some (cs.dropWhile isIdChar,
          if isKeyword id then addToken list TokenType.KEYWORD id
          else addToken list TokenType.IDENTIFIER id)
    else if isOperatorChar c then
      match rest with
      | d :: rest2 =>
        if isOperatorChar d then some (rest2, addToken list TokenType.OPERATOR [c, d])
        else some (rest, addToken list TokenType.OPERATOR [c])
      | [] => some (rest, addToken list TokenType.OPERATOR [c])
    else if isSeparator c then
      some (rest, addToken list TokenType.SEPARATOR [c])
    else some (rest, list)

/-- The `while (idx < len)` loop of `tokenize`; every iteration consumes at
least one character, so a fuel of the length of the text is never used up
(`tokenizeLoop_fuel`).  The result is `none` when an iteration overruns `id`. -/
def tokenizeLoop : Nat → List Char → TokenList → Option TokenList
  | 0, _, list => some list
  | _ + 1, [], list => some list
  | fuel + 1, c :: rest, list =>
    match tokenizeStep (c :: rest) list with
    | none => none
    | some next => tokenizeLoop fuel next.1 next.2

def tokenize (code : List Char) : Option TokenList :=
  tokenizeLoop (cstr code).length (cstr code) []

/-! ## Structure extraction -/

abbrev StructureList := List (List Char)

/-- The `for` loop of `extractStructure` from token `idx` on; `items` is
the list built so far, and the loop is left once it holds `MAX_TOKENS` items. -/
def extractStructureLoop : List Token → StructureList → StructureList
  | [], items => items
  | tok :: rest, items =>
    if items.length ≥ MAX_TOKENS then items
    else if tok.type = TokenType.KEYWORD then
      extractStructureLoop rest (items ++ [tok.value])
    else if tok.type = TokenType.SEPARATOR then
      if tok.value = ['{'] then extractStructureLoop rest (items ++ ["BLOCK_START".toList])
      else if tok.value = ['}'] then extractStructureLoop rest (items ++ ["BLOCK_END".toList])
      else if tok.value = ['('] then extractStructureLoop rest (items ++ ["PAREN_OPEN".toList])
      else if tok.value = [')'] then extractStructureLoop rest (items ++ ["PAREN_CLOSE".toList])
      else extractStructureLoop rest items
    else if tok.type = TokenType.OPERATOR then
      extractStructureLoop rest (items ++ ["OP".toList])
    else extractStructureLoop rest items

def extractStructure (tokens : TokenList) : StructureList :=
  extractStructureLoop tokens []

/-! ## Dynamic-programming tables -/

/-- A two-dimensional table of `int`, `dp[i][j]`. -/
abbrev Table := Nat → Nat → Nat

/-- The table all of whose cells are zero (`calloc`). -/
def Table.zero : Table := fun _ _ => 0

/-- The assignment `dp[i][j] = v`. -/
def Table.set (dp : Table) (i j v : Nat) : Table :=
  fun a b => if a = i ∧ b = j then v else dp a b

/-- The loop `for (k = 1; k <= n; k++) s = body k s`. -/
def forUpTo {σ : Type} (body : Nat → σ → σ) : Nat → σ → σ
  | 0, s => s
  | n + 1, s => body (n + 1) (forUpTo body n s)

/-- The nested loops `for (i = 1; i <= m; i++) for (j = 1; j <= n; j++)
dp[i][j] = cell dp i j`. -/
def fillTable (cell : Table → Nat → Nat → Nat) (m n : Nat) (dp : Table) : Table :=
  forUpTo (fun i dp1 => forUpTo (fun j dp2 => dp2.set i j (cell dp2 i j)) n dp1) m dp

/-- The test `eq a[i-1] b[j-1]` of a cell `(i, j)` with `1 ≤ i ≤ |a|` and
`1 ≤ j ≤ |b|`. -/
def matchAt {α : Type} (eq : α → α → Bool) (a b : List α) (i j : Nat) : Bool :=
  match a[i - 1]?, b[j - 1]? with
  | some x, some y => eq x y
  | _, _ => false

/-- The body of the LCS loops: the value stored in `dp[i][j]`. -/
def lcsCell {α : Type} (eq : α → α → Bool) (a b : List α) (dp : Table) (i j : Nat) : Nat :=
  if matchAt eq a b i j then dp (i - 1) (j - 1) + 1
  else if dp (i - 1) j > dp i (j - 1) then dp (i - 1) j else dp i (j - 1)

/-- The LCS table after the loops, on a zeroed table. -/
def lcsTable {α : Type} (eq : α → α → Bool) (a b : List α) : Table :=
  fillTable (lcsCell eq a b) a.length b.length Table.zero

/-! ## LCS similarity -/

/-- Token equality of the metrics: `strcmp` of the values is 0 and the types
are equal. -/
def tokenEq (x y : Token) : Bool :=
  x.value == y.value && x.type == y.type

noncomputable def lcsDistance (t1 t2 : TokenList) : ℝ :=
  let m := t1.length
  let n := t2.length
  if m = 0 ∨ n = 0 then 0
  else
    let lcs := lcsTable tokenEq t1 t2 m n
    (2 * (lcs : ℝ)) / ((m + n : ℕ) : ℝ)

/-! ## Edit distance -/

def min3 (a b c : Nat) : Nat :=
  let min := a
  let min := if b < min then b else min
  let min := if c < min then c else min
  min

/-- The body of the edit-distance loops: the value stored in `dp[i][j]`. -/
def editCell {α : Type} (eq : α → α → Bool) (a b : List α) (dp : Table) (i j : Nat) : Nat :=
  let cost := if matchAt eq a b i j then 0 else 1
  min3 (dp (i - 1) j + 1) (dp i (j - 1) + 1) (dp (i - 1) (j - 1) + cost)

/-- The Levenshtein table after the loops.  The table is allocated with
`malloc`; every cell the loops read has been written before, so the initial
content is immaterial and is taken to be zero. -/
def editTable {α : Type} (eq : α → α → Bool) (a b : List α) : Table :=
  let m := a.length
  let n := b.length
  let dp := forUpTo (fun i dp1 => dp1.set i 0 i) m (Table.zero.set 0 0 0)
  let dp := forUpTo (fun j dp1 => dp1.set 0 j j) n (dp.set 0 0 0)
  fillTable (editCell eq a b) m n dp

noncomputable def editDistance (t1 t2 : TokenList) : ℝ :=
  let m := t1.length
  let n := t2.length
  if m = 0 then (if n = 0 then 1 else 0)
  else if n = 0 then 0
  else
    let maxLen := if m > n then m else n
    1 - (editTable tokenEq t1 t2 m n : ℝ) / (maxLen : ℝ)

/-! ## Structure similarity -/

/-- Symbol equality of the structure metric: `strcmp` is 0. -/
def symbolEq (x y : List Char) : Bool :=
  x == y

noncomputable def structureSimilarity (s1 s2 : StructureList) : ℝ :=
  if s1.length = 0 ∨ s2.length = 0 then 0
  else
    let m := s1.length
    let n := s2.length
    (2 * (lcsTable symbolEq s1 s2 m n : ℝ)) / ((m + n : ℕ) : ℝ)

/-! ## N-gram similarity -/

abbrev NgramSet := List (List Char)

/-- The string built for the window at `i4`: the values of
`tokens[i4], ..., tokens[i4 + n - 1]`, each followed by `|`. -/
def ngramAt (tokens : TokenList) (n i4 : Nat) : List Char :=
  ((tokens.drop i4).take n).flatMap (fun t => t.value ++ ['|'])

/-- The loop of `generateNgrams` with `k` iterations left, at index `i4`; it
is left once the set holds `MAX_TOKENS` strings. -/
def generateNgramsLoop (tokens : TokenList) (n : Nat) : Nat → Nat → NgramSet → NgramSet
  | 0, _, set => set
  | k + 1, i4, set =>
    if set.length ≥ MAX_TOKENS then set
    else generateNgramsLoop tokens n k (i4 + 1) (set ++ [ngramAt tokens n i4])

/-- The loop runs for `i4 = 0, ..., count - n`, that is `count + 1 - n` times
(not at all when `count < n`). -/
def generateNgrams (tokens : TokenList) (n : Nat) : NgramSet :=
  generateNgramsLoop tokens n (tokens.length + 1 - n) 0 []

def ngramInSet (ngram : List Char) (set : NgramSet) : Bool :=
  set.any (fun g => ngram == g)

/-- The counter `intersection` of `ngramSimilarity`: the entries of `set1`
found in `set2`. -/
def ngramIntersection (set1 set2 : NgramSet) : Nat :=
  (set1.filter (fun g => ngramInSet g set2)).length

/-- The `int` value `totalUnique` of `ngramSimilarity`. -/
def ngramTotalUnique (set1 set2 : NgramSet) : Int :=
  (set1.length : Int) + (set2.length : Int) - (ngramIntersection set1 set2 : Int)

noncomputable def ngramSimilarity (t1 t2 : TokenList) (n : Nat) : ℝ :=
  if t1.length < n ∨ t2.length < n then 0
  else
    let set1 := generateNgrams t1 n
    let set2 := generateNgrams t2 n
    let intersection := ngramIntersection set1 set2
    let totalUnique := ngramTotalUnique set1 set2
    if totalUnique > 0 then (intersection : ℝ) / (totalUnique : ℝ) else 0

/-! ## Rounding to `double` -/

/-- The integer nearest to `x`; of two equally near integers, the even one. -/
noncomputable def roundTiesEven (x : ℝ) : ℤ :=
  if Int.fract x < 1 / 2 then ⌊x⌋
  else if 1 / 2 < Int.fract x then ⌊x⌋ + 1
  else if ⌊x⌋ % 2 = 0 then ⌊x⌋ else ⌊x⌋ + 1

/-- The spacing of the `double` values around `x`: `2 ^ (e - 52)` for
`2 ^ e ≤ |x| < 2 ^ (e + 1)`, a significand of 53 bits. -/
noncomputable def ulp (x : ℝ) : ℝ := 2 ^ (Int.log 2 |x| - 52)

/-- The `double` nearest to `x`, ties to the even significand: the result of
one correctly rounded operation whose exact value is `x`.  The exponent range
is not bounded; the values rounded below lie between `2 ^ (-30)` and
`2 ^ 30`. -/
noncomputable def roundDouble (x : ℝ) : ℝ := (roundTiesEven (x / ulp x) : ℝ) * ulp x

/-! ## Token frequency -/

structure FreqItem where
  token : List Char
  count : Nat
  deriving DecidableEq, Repr

abbrev FreqMap := List FreqItem

/-- The search loop of `addToFreqMap` when it finds the token: the first item
with that token has its count incremented. -/
def bumpFreq (token : List Char) : FreqMap → FreqMap
  | [] => []
  | it :: rest =>
    if it.token == token then { it with count := it.count + 1 } :: rest
    else it :: bumpFreq token rest

def addToFreqMap (map : FreqMap) (token : List Char) : FreqMap :=
  if map.any (fun it => it.token == token) then bumpFreq token map
  else if map.length < MAX_TOKENS then map ++ [{ token := token, count := 1 }]
  else map

def getFrequency (map : FreqMap) (token : List Char) : Nat :=
  match map.find? (fun it => it.token == token) with
  | some it => it.count
  | none => 0

/-- The map built by the first two loops of `tokenFrequencySimilarity`. -/
def buildFreqMap (t : TokenList) : FreqMap :=
  t.foldl (fun map tok =>
    if tok.type = TokenType.KEYWORD ∨ tok.type = TokenType.OPERATOR then
      addToFreqMap map tok.value
    else map) []

/-- The sum `dotProduct`: over the items of `freq1`, with lookups in `freq2`. -/
def freqDot (freq1 freq2 : FreqMap) : Nat :=
  (freq1.map (fun it => it.count * getFrequency freq2 it.token)).sum

/-- The sums `mag1` and `mag2`. -/
def freqMag (freq : FreqMap) : Nat :=
  (freq.map (fun it => it.count * it.count)).sum

/-- The returned expression `dotProduct / (sqrt(mag1) * sqrt(mag2))`: the two
square roots, the product and the quotient each yield the `double` nearest to
their exact result. -/
noncomputable def cosineDouble (dotProduct mag1 mag2 : ℝ) : ℝ :=
  roundDouble (dotProduct /
    roundDouble (roundDouble (Real.sqrt mag1) * roundDouble (Real.sqrt mag2)))

/-- The cosine of the two count vectors.  The sums `dotProduct`, `mag1` and
`mag2` are sums of `int` products below `2 ^ 53`, which the `double`
accumulators hold exactly. -/
noncomputable def tokenFrequencySimilarity (t1 t2 : TokenList) : ℝ :=
  let freq1 := buildFreqMap t1
  let freq2 := buildFreqMap t2
  if freq1.length = 0 ∨ freq2.length = 0 then 0
  else
    let dotProduct := freqDot freq1 freq2
    let mag1 := freqMag freq1
    let mag2 := freqMag freq2
    if mag1 = 0 ∨ mag2 = 0 then 0
    else cosineDouble (dotProduct : ℝ) (mag1 : ℝ) (mag2 : ℝ)
/-! ## Result and comparison -/

structure Result where
  tokenSimilarity : ℝ
  structureSimilarity : ℝ
  ngramSimilarity : ℝ
  frequencySimilarity : ℝ
  editSimilarity : ℝ
  overallScore : ℝ

/-- The comparison of two texts; `none` when a call of `tokenize` overruns its
buffer. -/
noncomputable def compare (code1 code2 : List Char) : Option Result :=
  match tokenize code1, tokenize code2 with
  | some tokens1, some tokens2 =>
    let structure1 := extractStructure tokens1
    let structure2 := extractStructure tokens2
    let tokenSimilarity := lcsDistance tokens1 tokens2
    let structureSimilarity := structureSimilarity structure1 structure2
    let ngramSimilarity := ngramSimilarity tokens1 tokens2 3
    let frequencySimilarity := tokenFrequencySimilarity tokens1 tokens2
    let editSimilarity := editDistance tokens1 tokens2
    some
      { tokenSimilarity := tokenSimilarity
        structureSimilarity := structureSimilarity
        ngramSimilarity := ngramSimilarity
        frequencySimilarity := frequencySimilarity
        editSimilarity := editSimilarity
        overallScore :=
          0.30 * tokenSimilarity +
          0.25 * structureSimilarity +
          0.20 * ngramSimilarity +
          0.15 * frequencySimilarity +
          0.10 * editSimilarity }
  | _, _ => none

/-! ## The recurrences the tables satisfy -/

/-- The recurrence of the LCS table, read off the loop body: row 0 and
column 0 stay zero, and cell `(i, j)` is computed from its three neighbours. -/
def lcsRec {α : Type} (eq : α → α → Bool) (a b : List α) : Nat → Nat → Nat
  | 0, _ => 0
  | _ + 1, 0 => 0
  | i + 1, j + 1 =>
    if matchAt eq a b (i + 1) (j + 1) then lcsRec eq a b i j + 1
    else if lcsRec eq a b i (j + 1) > lcsRec eq a b (i + 1) j then lcsRec eq a b i (j + 1)
    else lcsRec eq a b (i + 1) j
termination_by i j => (i, j)

/-- The recurrence of the Levenshtein table, read off the loop body, with the
base cases `dp[i][0] = i` and `dp[0][j] = j`. -/
def editRec {α : Type} (eq : α → α → Bool) (a b : List α) : Nat → Nat → Nat
  | 0, j => j
  | i + 1, 0 => i + 1
  | i + 1, j + 1 =>
    min3 (editRec eq a b i (j + 1) + 1) (editRec eq a b (i + 1) j + 1)
      (editRec eq a b i j + (if matchAt eq a b (i + 1) (j + 1) then 0 else 1))
termination_by i j => (i, j)

/-- A cell body that reads only the three neighbours of the cell it writes. -/
def LocalCell (cell : Table → Nat → Nat → Nat) : Prop :=
  ∀ (dp dq : Table) (i j : Nat),
    dp (i - 1) (j - 1) = dq (i - 1) (j - 1) → dp (i - 1) j = dq (i - 1) j →
    dp i (j - 1) = dq i (j - 1) → cell dp i j = cell dq i j

/-! ## Auxiliary definitions for the proofs -/

/-- The symbol that the loop body of `extractStructure` appends for one
token, if it appends one. -/
def structureSymbol (tok : Token) : Option (List Char) :=
  if tok.type = TokenType.KEYWORD then some tok.value
  else if tok.type = TokenType.SEPARATOR then
    if tok.value = ['{'] then some "BLOCK_START".toList
    else if tok.value = ['}'] then some "BLOCK_END".toList
    else if tok.value = ['('] then some "PAREN_OPEN".toList
    else if tok.value = [')'] then some "PAREN_CLOSE".toList
    else none
  else if tok.type = TokenType.OPERATOR then some "OP".toList
  else none

/-- The shape of a token that `tokenize` can emit: a Keyword's value is in
the keyword table; an Identifier's value is a non-empty word that is not in
the table; an Operator's value is one or two operator characters; a Literal's
value is `STR` or `NUM`; a Separator's value is one separator character. -/
def wellFormedToken (tok : Token) : Bool :=
  match tok.type with
  | TokenType.KEYWORD => isKeyword tok.value
  | TokenType.IDENTIFIER =>
    !isKeyword tok.value && !tok.value.isEmpty && tok.value.all isIdChar
  | TokenType.OPERATOR =>
    (tok.value.length == 1 || tok.value.length == 2) && tok.value.all isOperatorChar
  | TokenType.LITERAL => tok.value == "STR".toList || tok.value == "NUM".toList
  | TokenType.SEPARATOR => tok.value.length == 1 && tok.value.all isSeparator
  | _ => false

/-- The invariant of the tokenizer loop: the list is within its capacity and
every token in it is well formed. -/
def TokensOK (list : TokenList) : Prop :=
  list.length ≤ MAX_TOKENS ∧ ∀ tok ∈ list, wellFormedToken tok = true

/-! ## The structure mapping of the specification -/

/-- The mapping of the specification from a token to its structural symbol:
a Keyword maps to itself, the separators `{`, `}`, `(`, `)` map to
`BLOCK_START`, `BLOCK_END`, `PAREN_OPEN`, `PAREN_CLOSE`, an Operator maps to
`OP`, and every other token is dropped. -/
def specSymbol (tok : Token) : Option (List Char) :=
  match tok.type with
  | TokenType.KEYWORD => some tok.value
  | TokenType.SEPARATOR =>
    if tok.value = "\x7b".toList then some "BLOCK_START".toList
    else if tok.value = "\x7d".toList then some "BLOCK_END".toList
    else if tok.value = "(".toList then some "PAREN_OPEN".toList
    else if tok.value = ")".toList then some "PAREN_CLOSE".toList
    else none
  | TokenType.OPERATOR => some "OP".toList
  | _ => none

/-- The structure sequence of the specification: the order-preserving
filter-map of the token sequence under `specSymbol`. -/
def specStructure (ts : TokenList) : StructureList :=
  ts.filterMap specSymbol

/-- Two tokens that are equal or are both Identifiers. -/
abbrev sameUpToIdentifier (x y : Token) : Prop :=
  x = y ∨ (x.type = TokenType.IDENTIFIER ∧ y.type = TokenType.IDENTIFIER)

/-! ## The tokenizer loop terminates within its fuel -/

theorem skipBlockComment_length : ∀ (cs : List Char), (skipBlockComment cs).length ≤ cs.length
  | [] => by simp [skipBlockComment]
  | [_] => by simp [skipBlockComment]
  | c :: d :: rest => by
    have ih := skipBlockComment_length (d :: rest)
    unfold skipBlockComment
    split
    · simp; omega
    · simp at ih ⊢; omega

theorem skipString_length (q : Char) : ∀ (n : Nat) (cs : List Char), cs.length ≤ n →
    (skipString q cs).length ≤ cs.length := by
  intro n
  induction n with
  | zero =>
    intro cs h
    cases cs with
    | nil => simp [skipString]
    | cons c rest => simp at h
  | succ n ih =>
    intro cs h
    cases cs with
    | nil => simp [skipString]
    | cons c rest =>
      simp at h
      unfold skipString
      split
      · simp
      · split
        · cases rest with
          | nil => simp
          | cons d rest2 =>
            simp at h ⊢
            have := ih rest2 (by omega)
            omega
        · have := ih rest h
          simp; omega

theorem dropWhile_length_le (p : Char → Bool) (cs : List Char) :
    (cs.dropWhile p).length ≤ cs.length :=
  (List.dropWhile_sublist p).length_le

theorem isIdChar_of_start {c : Char} (h : (isalpha c || c == '_') = true) :
    isIdChar c = true := by
  simp only [isIdChar, isalnum]
  simp only [Bool.or_eq_true] at h ⊢
  rcases h with h | h
  · exact Or.inl (Or.inl h)
  · exact Or.inr h

theorem tokenizeStep_length (c : Char) (rest : List Char) (list : TokenList)
    (next : List Char × TokenList) (h : tokenizeStep (c :: rest) list = some next) :
    next.1.length ≤ rest.length := by
  unfold tokenizeStep at h
  simp only at h
  by_cases h1 : isspace c = true
  · simp only [h1, ↓reduceIte] at h
    obtain rfl := Option.some.inj h
    exact le_rfl
  simp only [h1, Bool.false_eq_true, ↓reduceIte] at h
  by_cases h2 : (c == '/' && rest.head? == some '/') = true
  · simp only [h2, ↓reduceIte, skipLineComment] at h
    obtain rfl := Option.some.inj h
    have := dropWhile_length_le (fun c => c != NEWLINE) rest.tail
    have := List.length_tail rest
    simp only
    omega
  simp only [h2, Bool.false_eq_true, ↓reduceIte] at h
  by_cases h3 : (c == '/' && rest.head? == some '*') = true
  · simp only [h3, ↓reduceIte] at h
    obtain rfl := Option.some.inj h
    have := skipBlockComment_length rest.tail
    have := List.length_tail rest
    simp only
    omega
  simp only [h3, Bool.false_eq_true, ↓reduceIte] at h
  by_cases h4 : (c == DQUOTE || c == SQUOTE) = true
  · simp only [h4, ↓reduceIte] at h
    obtain rfl := Option.some.inj h
    exact skipString_length c rest.length rest le_rfl
  simp only [h4, Bool.false_eq_true, ↓reduceIte] at h
  by_cases h5 : isdigit c = true
  · have hc : isNumChar c = true := by simp [isNumChar, h5]
    simp only [h5, ↓reduceIte, List.dropWhile_cons, hc] at h
    obtain rfl := Option.some.inj h
    exact dropWhile_length_le _ _
  simp only [h5, Bool.false_eq_true, ↓reduceIte] at h
  by_cases h6 : (isalpha c || c == '_') = true
  · simp only [h6, ↓reduceIte, List.dropWhile_cons, isIdChar_of_start h6] at h
    split_ifs at h
    all_goals
      obtain rfl := Option.some.inj h
      exact dropWhile_length_le _ _
  simp only [h6, Bool.false_eq_true, ↓reduceIte] at h
  by_cases h7 : isOperatorChar c = true
  · simp only [h7, ↓reduceIte] at h
    cases rest with
    | nil =>
      obtain rfl := Option.some.inj h
      exact le_rfl
    | cons d rest2 =>
      simp only at h
      split_ifs at h
      all_goals
        obtain rfl := Option.some.inj h
        simp
  simp only [h7, Bool.false_eq_true, ↓reduceIte] at h
  split_ifs at h
  all_goals
    obtain rfl := Option.some.inj h
    exact le_rfl

theorem tokenizeLoop_fuel : ∀ (f g : Nat) (cs : List Char) (list : TokenList),
    cs.length ≤ f → cs.length ≤ g → tokenizeLoop f cs list = tokenizeLoop g cs list := by
  intro f
  induction f with
  | zero =>
    intro g cs list hf hg
    have : cs = [] := List.length_eq_zero.mp (by omega)
    subst this
    cases g <;> simp [tokenizeLoop]
  | succ f ih =>
    intro g cs list hf hg
    cases cs with
    | nil => cases g <;> simp [tokenizeLoop]
    | cons c rest =>
      cases g with
      | zero => simp at hg
      | succ g =>
        simp only [tokenizeLoop]
        cases hstep : tokenizeStep (c :: rest) list with
        | none => rfl
        | some next =>
          have := tokenizeStep_length c rest list next hstep
          simp only [List.length_cons] at hf hg
          exact ih g _ _ (by omega) (by omega)

/-- One iteration of the loop, with the fuel that is left set to the length of
the text that is left. -/
theorem tokenizeLoop_unfold (c : Char) (rest : List Char) (list : TokenList) (f : Nat)
    (hf : (c :: rest).length ≤ f) :
    tokenizeLoop f (c :: rest) list =
      match tokenizeStep (c :: rest) list with
      | none => none
      | some next => tokenizeLoop next.1.length next.1 next.2 := by
  cases f with
  | zero => simp at hf
  | succ f =>
    simp only [tokenizeLoop]
    cases hstep : tokenizeStep (c :: rest) list with
    | none => rfl
    | some next =>
      have := tokenizeStep_length c rest list next hstep
      simp only [List.length_cons] at hf
      exact tokenizeLoop_fuel _ _ _ _ (by omega) le_rfl

/-! ## Invariants of the tokenizer -/

theorem addToken_ok (list : TokenList) (type : TokenType) (value : List Char)
    (h : TokensOK list)
    (hw : wellFormedToken ⟨type, value.take (MAX_TOKEN_LEN - 1)⟩ = true) :
    TokensOK (addToken list type value) := by
  unfold addToken
  split_ifs with hfull
  · exact h
  · refine ⟨by simp only [List.length_append, List.length_singleton]; omega, ?_⟩
    intro tok htok
    rcases List.mem_append.mp htok with hm | hm
    · exact h.2 tok hm
    · rw [List.mem_singleton.mp hm]
      exact hw

theorem keywords_short : ∀ k ∈ keywords, k.length ≤ 8 := by decide

theorem mem_keywords_of_isKeyword {str : List Char} (h : isKeyword str = true) :
    str ∈ keywords := by
  simp only [isKeyword, List.any_eq_true, beq_iff_eq] at h
  obtain ⟨k, hk, rfl⟩ := h
  exact hk

theorem isKeyword_length {str : List Char} (h : isKeyword str = true) : str.length ≤ 8 :=
  keywords_short str (mem_keywords_of_isKeyword h)

theorem wellFormed_keyword (id : List Char) (h : isKeyword id = true) :
    wellFormedToken ⟨TokenType.KEYWORD, id.take (MAX_TOKEN_LEN - 1)⟩ = true := by
  have hl := isKeyword_length h
  have : id.take (MAX_TOKEN_LEN - 1) = id :=
    List.take_of_length_le (by simp only [MAX_TOKEN_LEN]; omega)
  simp only [wellFormedToken, this, h]

theorem wellFormed_identifier (c : Char) (rest : List Char) (hc : isIdChar c = true)
    (hfit : ¬ ((c :: rest).takeWhile isIdChar).length ≥ MAX_TOKEN_LEN)
    (h : ¬ isKeyword ((c :: rest).takeWhile isIdChar) = true) :
    wellFormedToken
      ⟨TokenType.IDENTIFIER, ((c :: rest).takeWhile isIdChar).take (MAX_TOKEN_LEN - 1)⟩ = true := by
  have htake : ((c :: rest).takeWhile isIdChar).take (MAX_TOKEN_LEN - 1) =
      (c :: rest).takeWhile isIdChar :=
    List.take_of_length_le (by simp only [MAX_TOKEN_LEN] at hfit ⊢; omega)
  have hcons : (c :: rest).takeWhile isIdChar = c :: rest.takeWhile isIdChar := by
    rw [List.takeWhile_cons, if_pos hc]
  have hall : ∀ x ∈ (c :: rest).takeWhile isIdChar, isIdChar x = true :=
    fun x hx => List.mem_takeWhile_imp hx
  have hne : ((c :: rest).takeWhile isIdChar).isEmpty = false := by
    rw [hcons]
    rfl
  have hkw : isKeyword ((c :: rest).takeWhile isIdChar) = false := by simpa using h
  rw [htake]
  simp only [wellFormedToken, hkw, hne, Bool.not_false, Bool.true_and, List.all_eq_true]
  exact hall

theorem tokenizeStep_ok (cs : List Char) (list : TokenList) (next : List Char × TokenList)
    (hstep : tokenizeStep cs list = some next) (h : TokensOK list) : TokensOK next.2 := by
  unfold tokenizeStep at hstep
  cases cs with
  | nil =>
    obtain rfl := Option.some.inj hstep
    exact h
  | cons c rest =>
    simp only at hstep
    by_cases h1 : isspace c = true
    · simp only [h1, ↓reduceIte] at hstep
      obtain rfl := Option.some.inj hstep
      exact h
    simp only [h1, Bool.false_eq_true, ↓reduceIte] at hstep
    by_cases h2 : (c == '/' && rest.head? == some '/') = true
    · simp only [h2, ↓reduceIte] at hstep
      obtain rfl := Option.some.inj hstep
      exact h
    simp only [h2, Bool.false_eq_true, ↓reduceIte] at hstep
    by_cases h3 : (c == '/' && rest.head? == some '*') = true
    · simp only [h3, ↓reduceIte] at hstep
      obtain rfl := Option.some.inj hstep
      exact h
    simp only [h3, Bool.false_eq_true, ↓reduceIte] at hstep
    by_cases h4 : (c == DQUOTE || c == SQUOTE) = true
    · simp only [h4, ↓reduceIte] at hstep
      obtain rfl := Option.some.inj hstep
      exact addToken_ok _ _ _ h (by decide)
    simp only [h4, Bool.false_eq_true, ↓reduceIte] at hstep
    by_cases h5 : isdigit c = true
    · simp only [h5, ↓reduceIte] at hstep
      obtain rfl := Option.some.inj hstep
      exact addToken_ok _ _ _ h (by decide)
    simp only [h5, Bool.false_eq_true, ↓reduceIte] at hstep
    by_cases h6 : (isalpha c || c == '_') = true
    · simp only [h6, ↓reduceIte] at hstep
      by_cases hfit : ((c :: rest).takeWhile isIdChar).length ≥ MAX_TOKEN_LEN
      · simp only [hfit, ↓reduceIte] at hstep
        exact Option.noConfusion hstep
      simp only [hfit, ↓reduceIte] at hstep
      by_cases h7 : isKeyword ((c :: rest).takeWhile isIdChar) = true
      · simp only [h7, ↓reduceIte] at hstep
        obtain rfl := Option.some.inj hstep
        exact addToken_ok _ _ _ h (wellFormed_keyword _ h7)
      · simp only [h7, Bool.false_eq_true, ↓reduceIte] at hstep
        obtain rfl := Option.some.inj hstep
        exact addToken_ok _ _ _ h
          (wellFormed_identifier c rest (isIdChar_of_start h6) hfit h7)
    simp only [h6, Bool.false_eq_true, ↓reduceIte] at hstep
    by_cases h7 : isOperatorChar c = true
    · simp only [h7, ↓reduceIte] at hstep
      cases rest with
      | nil =>
        obtain rfl := Option.some.inj hstep
        exact addToken_ok _ _ _ h (by simp [wellFormedToken, MAX_TOKEN_LEN, h7])
      | cons d rest2 =>
        simp only at hstep
        by_cases h8 : isOperatorChar d = true
        · simp only [h8, ↓reduceIte] at hstep
          obtain rfl := Option.some.inj hstep
          exact addToken_ok _ _ _ h (by simp [wellFormedToken, MAX_TOKEN_LEN, h7, h8])
        · simp only [h8, Bool.false_eq_true, ↓reduceIte] at hstep
          obtain rfl := Option.some.inj hstep
          exact addToken_ok _ _ _ h (by simp [wellFormedToken, MAX_TOKEN_LEN, h7])
    simp only [h7, Bool.false_eq_true, ↓reduceIte] at hstep
    by_cases h8 : isSeparator c = true
    · simp only [h8, ↓reduceIte] at hstep
      obtain rfl := Option.some.inj hstep
      exact addToken_ok _ _ _ h (by simp [wellFormedToken, MAX_TOKEN_LEN, h8])
    · simp only [h8, Bool.false_eq_true, ↓reduceIte] at hstep
      obtain rfl := Option.some.inj hstep
      exact h

theorem tokenizeLoop_ok : ∀ (fuel : Nat) (cs : List Char) (list ts : TokenList),
    tokenizeLoop fuel cs list = some ts → TokensOK list → TokensOK ts := by
  intro fuel
  induction fuel with
  | zero =>
    intro cs list ts hts h
    simp only [tokenizeLoop] at hts
    obtain rfl := Option.some.inj hts
    exact h
  | succ fuel ih =>
    intro cs list ts hts h
    cases cs with
    | nil =>
      simp only [tokenizeLoop] at hts
      obtain rfl := Option.some.inj hts
      exact h
    | cons c rest =>
      simp only [tokenizeLoop] at hts
      cases hstep : tokenizeStep (c :: rest) list with
      | none =>
        rw [hstep] at hts
        exact Option.noConfusion hts
      | some next =>
        rw [hstep] at hts
        exact ih _ _ _ hts (tokenizeStep_ok _ _ _ hstep h)

/-- The tokens that `tokenize` returns are within the capacity and well
formed. -/
theorem tokenize_ok (code : List Char) (ts : TokenList) (h : tokenize code = some ts) :
    TokensOK ts :=
  tokenizeLoop_ok _ _ _ _ h ⟨by simp [MAX_TOKENS], by simp⟩

/-! ## The tokenizer on two sample texts -/

theorem tokenizeLoop_nil (fuel : Nat) (list : TokenList) :
    tokenizeLoop fuel [] list = some list := by
  cases fuel <;> rfl

theorem skipLineComment_eq_nil (cs : List Char) (h : ∀ x ∈ cs, x ≠ NEWLINE) :
    skipLineComment cs = [] := by
  simp only [skipLineComment, List.dropWhile_eq_nil_iff]
  intro x hx
  simpa using h x hx

theorem mem_cstr {x : Char} {code : List Char} (h : x ∈ cstr code) : x ∈ code :=
  (List.takeWhile_sublist _).subset h

/-- C9: whatever follows `//` up to the end of a text without a newline
produces no token: on the text `int x = 5; //` followed by such a comment body
`tokenize` returns exactly the tokens Keyword `int`, Identifier `x`, Operator
`=`, Literal `NUM`, Separator `;`. -/
theorem tokenize_ignores_line_comment (c : List Char) (hc : ∀ x ∈ c, x ≠ NEWLINE) :
    tokenize ("int x = 5; //".toList ++ c) =
      some [⟨TokenType.KEYWORD, "int".toList⟩, ⟨TokenType.IDENTIFIER, "x".toList⟩,
       ⟨TokenType.OPERATOR, "=".toList⟩, ⟨TokenType.LITERAL, "NUM".toList⟩,
       ⟨TokenType.SEPARATOR, ";".toList⟩] := by
  have h1 : tokenize ("int x = 5; //".toList ++ c) =
      tokenizeLoop ((cstr c).length + 3) (skipLineComment (cstr c))
        [⟨TokenType.KEYWORD, "int".toList⟩, ⟨TokenType.IDENTIFIER, "x".toList⟩,
         ⟨TokenType.OPERATOR, "=".toList⟩, ⟨TokenType.LITERAL, "NUM".toList⟩,
         ⟨TokenType.SEPARATOR, ";".toList⟩] := rfl
  rw [h1, skipLineComment_eq_nil _ (fun x hx => hc x (mem_cstr hx)), tokenizeLoop_nil]

/-- The instance of C9 the specification names: `int x = 5; // comment`. -/
theorem tokenize_ignores_line_comment_witness :
    (∀ x ∈ " comment".toList, x ≠ NEWLINE) ∧
    tokenize ("int x = 5; //".toList ++ " comment".toList) =
      some [⟨TokenType.KEYWORD, "int".toList⟩, ⟨TokenType.IDENTIFIER, "x".toList⟩,
       ⟨TokenType.OPERATOR, "=".toList⟩, ⟨TokenType.LITERAL, "NUM".toList⟩,
       ⟨TokenType.SEPARATOR, ";".toList⟩] :=
  ⟨by decide, tokenize_ignores_line_comment " comment".toList (by decide)⟩

/-- C10: the text `if (a == b) { return 1; }` has eleven tokens, and the
sequence of its structure symbols is `if`, `PAREN_OPEN`, `OP`, `PAREN_CLOSE`,
`BLOCK_START`, `return`, `BLOCK_END`: the identifiers, the numeric literal
and `;` are dropped and the operator `==` gives one `OP`. -/
theorem extractStructure_if_return :
    tokenize "if (a == b) \x7b return 1; \x7d".toList =
      some [⟨TokenType.KEYWORD, "if".toList⟩, ⟨TokenType.SEPARATOR, "(".toList⟩,
       ⟨TokenType.IDENTIFIER, "a".toList⟩, ⟨TokenType.OPERATOR, "==".toList⟩,
       ⟨TokenType.IDENTIFIER, "b".toList⟩, ⟨TokenType.SEPARATOR, ")".toList⟩,
       ⟨TokenType.SEPARATOR, "\x7b".toList⟩, ⟨TokenType.KEYWORD, "return".toList⟩,
       ⟨TokenType.LITERAL, "NUM".toList⟩, ⟨TokenType.SEPARATOR, ";".toList⟩,
       ⟨TokenType.SEPARATOR, "\x7d".toList⟩] ∧
    (tokenize "if (a == b) \x7b return 1; \x7d".toList).map extractStructure =
      some ["if".toList, "PAREN_OPEN".toList, "OP".toList, "PAREN_CLOSE".toList,
       "BLOCK_START".toList, "return".toList, "BLOCK_END".toList] := by
  decide

/-! ## The word buffer -/

theorem takeWhile_replicate_isIdChar (n : Nat) :
    (List.replicate n 'a').takeWhile isIdChar = List.replicate n 'a' := by
  rw [List.takeWhile_eq_self_iff]
  intro x hx
  rw [List.eq_of_mem_replicate hx]
  decide

/-- A word of 256 characters overruns the buffer `id`; a word of 255
characters fills it. -/
theorem tokenize_word_of_buffer_length :
    tokenize (List.replicate 256 'a') = none ∧
    tokenize (List.replicate 255 'a') =
      some [⟨TokenType.IDENTIFIER, List.replicate 255 'a'⟩] := by
  have hc : ∀ n, cstr (List.replicate n 'a') = List.replicate n 'a' := by
    intro n
    unfold cstr
    rw [List.takeWhile_eq_self_iff]
    intro x hx
    rw [List.eq_of_mem_replicate hx]
    decide
  have hd : ∀ n, (List.replicate n 'a').dropWhile isIdChar = [] := by
    intro n
    rw [List.dropWhile_eq_nil_iff]
    intro x hx
    rw [List.eq_of_mem_replicate hx]
    decide
  have hk : ∀ n, 9 ≤ n → isKeyword (List.replicate n 'a') = false := by
    intro n hn
    rw [Bool.eq_false_iff]
    intro h
    have hm := mem_keywords_of_isKeyword h
    have hl : ∀ k ∈ keywords, k.length ≤ 8 := by decide
    have := hl _ hm
    simp at this
    omega
  have hstep : ∀ n, tokenizeStep ('a' :: List.replicate n 'a') [] =
      if (List.replicate (n + 1) 'a').length ≥ MAX_TOKEN_LEN then none
      else some ([], if isKeyword (List.replicate (n + 1) 'a') then
        addToken [] TokenType.KEYWORD (List.replicate (n + 1) 'a')
        else addToken [] TokenType.IDENTIFIER (List.replicate (n + 1) 'a')) := by
    intro n
    have e : 'a' :: List.replicate n 'a' = List.replicate (n + 1) 'a' := rfl
    have h1 : isspace 'a' = false := by decide
    have h2 : ('a' == '/') = false := by decide
    have h3 : ('a' == DQUOTE || 'a' == SQUOTE) = false := by decide
    have h4 : isdigit 'a' = false := by decide
    have h5 : (isalpha 'a' || 'a' == '_') = true := by decide
    unfold tokenizeStep
    simp only [h1, h2, h3, h4, h5, Bool.false_and, Bool.false_eq_true, ↓reduceIte, e,
      takeWhile_replicate_isIdChar, hd]
  constructor
  · unfold tokenize
    rw [hc, List.length_replicate]
    show tokenizeLoop (255 + 1) ('a' :: List.replicate 255 'a') [] = none
    rw [tokenizeLoop, hstep, List.length_replicate, if_pos (by decide)]
  · unfold tokenize
    rw [hc, List.length_replicate]
    show tokenizeLoop (254 + 1) ('a' :: List.replicate 254 'a') [] = _
    rw [tokenizeLoop, hstep, List.length_replicate, if_neg (by decide), hk _ (by norm_num)]
    have ht : (List.replicate 255 'a').take (MAX_TOKEN_LEN - 1) = List.replicate 255 'a' := by
      rw [List.take_replicate]
      rfl
    have ha : addToken [] TokenType.IDENTIFIER (List.replicate 255 'a') =
        [⟨TokenType.IDENTIFIER, List.replicate 255 'a'⟩] := by
      unfold addToken
      rw [if_neg (by decide), ht]
      rfl
    simp only [Bool.false_eq_true, ↓reduceIte, ha, tokenizeLoop_nil]

/-! ## The loops compute the recurrences -/

theorem fillRow_spec (cell : Table → Nat → Nat → Nat) (hloc : LocalCell cell) (r : Table)
    (hr : ∀ i j, 0 < i → 0 < j → r i j = cell r i j) (m n k : Nat) (hk : k < m) (dp : Table)
    (hdp : ∀ i j, i ≤ m → j ≤ n → (i ≤ k ∨ j = 0) → dp i j = r i j) :
    ∀ l, l ≤ n → ∀ i j, i ≤ m → j ≤ n → (i ≤ k ∨ j = 0 ∨ (i = k + 1 ∧ j ≤ l)) →
      forUpTo (fun j dp2 => dp2.set (k + 1) j (cell dp2 (k + 1) j)) l dp i j = r i j := by
  intro l
  induction l with
  | zero =>
    intro _ i j hi hj h
    simp only [forUpTo]
    apply hdp i j hi hj
    omega
  | succ l ih =>
    intro hl i j hi hj h
    have ih2 := ih (by omega)
    simp only [forUpTo, Table.set]
    split_ifs with hij
    · obtain ⟨rfl, rfl⟩ := hij
      rw [hr (k + 1) (l + 1) (by omega) (by omega)]
      apply hloc
      · exact ih2 _ _ (by omega) (by omega) (by omega)
      · exact ih2 _ _ (by omega) (by omega) (by omega)
      · exact ih2 _ _ (by omega) (by omega) (by omega)
    · apply ih2 i j hi hj
      omega

theorem fillTable_spec (cell : Table → Nat → Nat → Nat) (hloc : LocalCell cell) (r : Table)
    (hr : ∀ i j, 0 < i → 0 < j → r i j = cell r i j) (m n : Nat) (dp : Table)
    (hdp : ∀ i j, i ≤ m → j ≤ n → (i = 0 ∨ j = 0) → dp i j = r i j) :
    ∀ i j, i ≤ m → j ≤ n → fillTable cell m n dp i j = r i j := by
  have key : ∀ k, k ≤ m → ∀ i j, i ≤ m → j ≤ n → (i ≤ k ∨ j = 0) →
      forUpTo (fun i dp1 => forUpTo (fun j dp2 => dp2.set i j (cell dp2 i j)) n dp1) k dp i j
        = r i j := by
    intro k
    induction k with
    | zero =>
      intro _ i j hi hj h
      simp only [forUpTo]
      apply hdp i j hi hj
      omega
    | succ k ih =>
      intro hk i j hi hj h
      simp only [forUpTo]
      apply fillRow_spec cell hloc r hr m n k (by omega) _ (ih (by omega)) n le_rfl i j hi hj
      omega
  intro i j hi hj
  exact key m le_rfl i j hi hj (Or.inl hi)

theorem lcsCell_local {α : Type} (eq : α → α → Bool) (a b : List α) :
    LocalCell (lcsCell eq a b) := by
  intro dp dq i j h1 h2 h3
  simp only [lcsCell, h1, h2, h3]

theorem editCell_local {α : Type} (eq : α → α → Bool) (a b : List α) :
    LocalCell (editCell eq a b) := by
  intro dp dq i j h1 h2 h3
  simp only [editCell, h1, h2, h3]

theorem lcsRec_zero_left {α : Type} (eq : α → α → Bool) (a b : List α) (j : Nat) :
    lcsRec eq a b 0 j = 0 := by
  rw [lcsRec]

theorem lcsRec_zero_right {α : Type} (eq : α → α → Bool) (a b : List α) (i : Nat) :
    lcsRec eq a b i 0 = 0 := by
  cases i <;> rw [lcsRec]

theorem lcsRec_succ {α : Type} (eq : α → α → Bool) (a b : List α) (i j : Nat) :
    lcsRec eq a b (i + 1) (j + 1) =
      if matchAt eq a b (i + 1) (j + 1) then lcsRec eq a b i j + 1
      else if lcsRec eq a b i (j + 1) > lcsRec eq a b (i + 1) j then lcsRec eq a b i (j + 1)
      else lcsRec eq a b (i + 1) j := by
  rw [lcsRec]

theorem editRec_zero_left {α : Type} (eq : α → α → Bool) (a b : List α) (j : Nat) :
    editRec eq a b 0 j = j := by
  rw [editRec]

theorem editRec_zero_right {α : Type} (eq : α → α → Bool) (a b : List α) (i : Nat) :
    editRec eq a b i 0 = i := by
  cases i <;> rw [editRec]

theorem editRec_succ {α : Type} (eq : α → α → Bool) (a b : List α) (i j : Nat) :
    editRec eq a b (i + 1) (j + 1) =
      min3 (editRec eq a b i (j + 1) + 1) (editRec eq a b (i + 1) j + 1)
        (editRec eq a b i j + (if matchAt eq a b (i + 1) (j + 1) then 0 else 1)) := by
  rw [editRec]

/-- The LCS loops leave in `dp[i][j]` the value of the recurrence. -/
theorem lcsTable_eq_lcsRec {α : Type} (eq : α → α → Bool) (a b : List α) (i j : Nat)
    (hi : i ≤ a.length) (hj : j ≤ b.length) :
    lcsTable eq a b i j = lcsRec eq a b i j := by
  unfold lcsTable
  apply fillTable_spec (lcsCell eq a b) (lcsCell_local eq a b) (lcsRec eq a b) _ _ _ _ _ i j hi hj
  · intro i j hi hj
    obtain ⟨i, rfl⟩ := Nat.exists_eq_succ_of_ne_zero (by omega : i ≠ 0)
    obtain ⟨j, rfl⟩ := Nat.exists_eq_succ_of_ne_zero (by omega : j ≠ 0)
    rw [lcsRec_succ]
    simp only [lcsCell, Nat.add_sub_cancel, Nat.succ_eq_add_one]
  · intro i j _ _ h
    rcases h with rfl | rfl
    · rw [lcsRec_zero_left]; rfl
    · rw [lcsRec_zero_right]; rfl

theorem forUpTo_col (dp : Table) :
    ∀ k, ∀ i j, forUpTo (fun i dp1 => dp1.set i 0 i) k dp i j =
      if 1 ≤ i ∧ i ≤ k ∧ j = 0 then i else dp i j := by
  intro k
  induction k with
  | zero =>
    intro i j
    simp only [forUpTo]
    split_ifs <;> first | rfl | omega
  | succ k ih =>
    intro i j
    simp only [forUpTo, Table.set, ih]
    split_ifs <;> first | rfl | omega

theorem forUpTo_row (dp : Table) :
    ∀ k, ∀ i j, forUpTo (fun j dp1 => dp1.set 0 j j) k dp i j =
      if 1 ≤ j ∧ j ≤ k ∧ i = 0 then j else dp i j := by
  intro k
  induction k with
  | zero =>
    intro i j
    simp only [forUpTo]
    split_ifs <;> first | rfl | omega
  | succ k ih =>
    intro i j
    simp only [forUpTo, Table.set, ih]
    split_ifs <;> first | rfl | omega

/-- The edit-distance loops leave in `dp[i][j]` the value of the recurrence. -/
theorem editTable_eq_editRec {α : Type} (eq : α → α → Bool) (a b : List α) (i j : Nat)
    (hi : i ≤ a.length) (hj : j ≤ b.length) :
    editTable eq a b i j = editRec eq a b i j := by
  unfold editTable
  apply fillTable_spec (editCell eq a b) (editCell_local eq a b) (editRec eq a b) _ _ _ _ _
    i j hi hj
  · intro i j hi hj
    obtain ⟨i, rfl⟩ := Nat.exists_eq_succ_of_ne_zero (by omega : i ≠ 0)
    obtain ⟨j, rfl⟩ := Nat.exists_eq_succ_of_ne_zero (by omega : j ≠ 0)
    rw [editRec_succ]
    simp only [editCell, Nat.add_sub_cancel, Nat.succ_eq_add_one]
  · intro i j hi hj h
    simp only [forUpTo_row, forUpTo_col, Table.set, Table.zero]
    rcases h with rfl | rfl
    · rw [editRec_zero_left]
      split_ifs <;> omega
    · rw [editRec_zero_right]
      split_ifs <;> omega

/-! ## Properties of the recurrences -/

theorem min3_eq (a b c : Nat) : min3 a b c = min (min a b) c := by
  simp only [min3]
  split_ifs <;> omega

theorem matchAt_swap {α : Type} (eq : α → α → Bool) (a b : List α) (i j : Nat) :
    matchAt (fun x y => eq y x) b a j i = matchAt eq a b i j := by
  simp only [matchAt]
  cases a[i - 1]? <;> cases b[j - 1]? <;> rfl

theorem lcsRec_le {α : Type} (eq : α → α → Bool) (a b : List α) :
    ∀ i j, lcsRec eq a b i j ≤ i ∧ lcsRec eq a b i j ≤ j := by
  intro i
  induction i with
  | zero => intro j; simp [lcsRec_zero_left]
  | succ i ih =>
    intro j
    induction j with
    | zero => simp [lcsRec_zero_right]
    | succ j ihj =>
      rw [lcsRec_succ]
      have h1 := ih j
      have h2 := ih (j + 1)
      split_ifs <;> omega

theorem editRec_le {α : Type} (eq : α → α → Bool) (a b : List α) :
    ∀ i j, editRec eq a b i j ≤ max i j := by
  intro i
  induction i with
  | zero => intro j; simp [editRec_zero_left]
  | succ i ih =>
    intro j
    induction j with
    | zero => simp [editRec_zero_right]
    | succ j _ =>
      rw [editRec_succ, min3_eq]
      have h1 := ih j
      split_ifs <;> omega

theorem lcsRec_swap {α : Type} (eq : α → α → Bool) (a b : List α) :
    ∀ i j, lcsRec (fun x y => eq y x) b a j i = lcsRec eq a b i j := by
  intro i
  induction i with
  | zero => intro j; rw [lcsRec_zero_left, lcsRec_zero_right]
  | succ i ih =>
    intro j
    induction j with
    | zero => rw [lcsRec_zero_left, lcsRec_zero_right]
    | succ j ihj =>
      rw [lcsRec_succ, lcsRec_succ, matchAt_swap, ih j, ih (j + 1), ihj]
      split_ifs <;> omega

theorem editRec_swap {α : Type} (eq : α → α → Bool) (a b : List α) :
    ∀ i j, editRec (fun x y => eq y x) b a j i = editRec eq a b i j := by
  intro i
  induction i with
  | zero => intro j; rw [editRec_zero_left, editRec_zero_right]
  | succ i ih =>
    intro j
    induction j with
    | zero => rw [editRec_zero_left, editRec_zero_right]
    | succ j ihj =>
      rw [editRec_succ, editRec_succ, matchAt_swap, ih j, ih (j + 1), ihj, min3_eq, min3_eq,
        Nat.min_comm (editRec eq a b (i + 1) j + 1)]

theorem matchAt_diag {α : Type} (eq : α → α → Bool) (hrefl : ∀ x, eq x x = true) (a : List α)
    (i : Nat) (hi : i < a.length) : matchAt eq a a (i + 1) (i + 1) = true := by
  simp only [matchAt, Nat.add_sub_cancel, List.getElem?_eq_getElem hi, hrefl]

theorem lcsRec_diag {α : Type} (eq : α → α → Bool) (hrefl : ∀ x, eq x x = true) (a : List α) :
    ∀ i, i ≤ a.length → lcsRec eq a a i i = i := by
  intro i
  induction i with
  | zero => intro _; rw [lcsRec_zero_left]
  | succ i ih =>
    intro hi
    rw [lcsRec_succ, matchAt_diag eq hrefl a i (by omega), if_pos rfl, ih (by omega)]

theorem editRec_diag {α : Type} (eq : α → α → Bool) (hrefl : ∀ x, eq x x = true) (a : List α) :
    ∀ i, i ≤ a.length → editRec eq a a i i = 0 := by
  intro i
  induction i with
  | zero => intro _; rw [editRec_zero_left]
  | succ i ih =>
    intro hi
    rw [editRec_succ, matchAt_diag eq hrefl a i (by omega), if_pos rfl, ih (by omega), min3_eq]
    omega

theorem tokenEq_refl (x : Token) : tokenEq x x = true := by
  simp [tokenEq]

theorem tokenEq_comm : (fun x y => tokenEq y x) = tokenEq := by
  funext x y
  simp only [tokenEq]
  rw [Bool.eq_iff_iff]
  simp only [Bool.and_eq_true, beq_iff_eq]
  constructor <;> rintro ⟨h1, h2⟩ <;> exact ⟨h1.symm, h2.symm⟩

theorem symbolEq_refl (x : List Char) : symbolEq x x = true := by
  simp [symbolEq]

theorem symbolEq_comm : (fun x y => symbolEq y x) = symbolEq := by
  funext x y
  simp only [symbolEq]
  rw [Bool.eq_iff_iff]
  simp only [beq_iff_eq]
  exact eq_comm

theorem lcsTable_comm {α : Type} (eq : α → α → Bool) (hc : (fun x y => eq y x) = eq)
    (a b : List α) : lcsTable eq a b a.length b.length = lcsTable eq b a b.length a.length := by
  rw [lcsTable_eq_lcsRec eq a b _ _ le_rfl le_rfl, lcsTable_eq_lcsRec eq b a _ _ le_rfl le_rfl]
  have := lcsRec_swap eq a b a.length b.length
  rw [hc] at this
  exact this.symm

theorem editTable_comm {α : Type} (eq : α → α → Bool) (hc : (fun x y => eq y x) = eq)
    (a b : List α) :
    editTable eq a b a.length b.length = editTable eq b a b.length a.length := by
  rw [editTable_eq_editRec eq a b _ _ le_rfl le_rfl, editTable_eq_editRec eq b a _ _ le_rfl le_rfl]
  have := editRec_swap eq a b a.length b.length
  rw [hc] at this
  exact this.symm

/-! ## Bounds and symmetry of the LCS and edit-distance scores -/

theorem lcsTable_twice_le {α : Type} (eq : α → α → Bool) (a b : List α) :
    2 * lcsTable eq a b a.length b.length ≤ a.length + b.length := by
  rw [lcsTable_eq_lcsRec eq a b _ _ le_rfl le_rfl]
  have := lcsRec_le eq a b a.length b.length
  omega

theorem editTable_le_max {α : Type} (eq : α → α → Bool) (a b : List α) :
    editTable eq a b a.length b.length ≤ max a.length b.length := by
  rw [editTable_eq_editRec eq a b _ _ le_rfl le_rfl]
  exact editRec_le eq a b a.length b.length

theorem dice_mem_unit (lcs m n : Nat) (h : 2 * lcs ≤ m + n) (hpos : 0 < m + n) :
    0 ≤ (2 * (lcs : ℝ)) / ((m + n : ℕ) : ℝ) ∧ (2 * (lcs : ℝ)) / ((m + n : ℕ) : ℝ) ≤ 1 := by
  have hp : (0 : ℝ) < ((m + n : ℕ) : ℝ) := by exact_mod_cast hpos
  constructor
  · positivity
  · rw [div_le_one hp]
    exact_mod_cast h

theorem lcsDistance_mem_unit (t1 t2 : TokenList) :
    0 ≤ lcsDistance t1 t2 ∧ lcsDistance t1 t2 ≤ 1 := by
  unfold lcsDistance
  simp only
  split_ifs with h
  · exact ⟨le_rfl, zero_le_one⟩
  · exact dice_mem_unit _ _ _ (lcsTable_twice_le tokenEq t1 t2) (by omega)

theorem editDistance_mem_unit (t1 t2 : TokenList) :
    0 ≤ editDistance t1 t2 ∧ editDistance t1 t2 ≤ 1 := by
  unfold editDistance
  simp only
  split_ifs with h1 h2 h3 h4
  · exact ⟨zero_le_one, le_rfl⟩
  · exact ⟨le_rfl, zero_le_one⟩
  · exact ⟨le_rfl, zero_le_one⟩
  · have hle := editTable_le_max tokenEq t1 t2
    have hmax : max t1.length t2.length = t1.length := by omega
    rw [hmax] at hle
    have hp : (0 : ℝ) < (t1.length : ℝ) := by exact_mod_cast Nat.pos_of_ne_zero h1
    have hq : (editTable tokenEq t1 t2 t1.length t2.length : ℝ) / (t1.length : ℝ) ≤ 1 := by
      rw [div_le_one hp]
      exact_mod_cast hle
    have hr : 0 ≤ (editTable tokenEq t1 t2 t1.length t2.length : ℝ) / (t1.length : ℝ) := by
      positivity
    constructor <;> linarith
  · have hle := editTable_le_max tokenEq t1 t2
    have hmax : max t1.length t2.length = t2.length := by omega
    rw [hmax] at hle
    have hp : (0 : ℝ) < (t2.length : ℝ) := by exact_mod_cast Nat.pos_of_ne_zero h3
    have hq : (editTable tokenEq t1 t2 t1.length t2.length : ℝ) / (t2.length : ℝ) ≤ 1 := by
      rw [div_le_one hp]
      exact_mod_cast hle
    have hr : 0 ≤ (editTable tokenEq t1 t2 t1.length t2.length : ℝ) / (t2.length : ℝ) := by
      positivity
    constructor <;> linarith

/-- C4: for all token sequences, empty ones included, `lcsDistance` and
`editDistance` lie in `[0, 1]`; the LCS table value satisfies
`2 * dp[m][n] ≤ m + n` and the Levenshtein table value `dp[m][n] ≤ max m n`. -/
theorem lcs_and_edit_scores_in_unit_interval (t1 t2 : TokenList) :
    (0 ≤ lcsDistance t1 t2 ∧ lcsDistance t1 t2 ≤ 1) ∧
    (0 ≤ editDistance t1 t2 ∧ editDistance t1 t2 ≤ 1) ∧
    2 * lcsTable tokenEq t1 t2 t1.length t2.length ≤ t1.length + t2.length ∧
    editTable tokenEq t1 t2 t1.length t2.length ≤ max t1.length t2.length :=
  ⟨lcsDistance_mem_unit t1 t2, editDistance_mem_unit t1 t2,
    lcsTable_twice_le tokenEq t1 t2, editTable_le_max tokenEq t1 t2⟩

theorem lcsDistance_comm (t1 t2 : TokenList) : lcsDistance t1 t2 = lcsDistance t2 t1 := by
  unfold lcsDistance
  simp only
  rw [lcsTable_comm tokenEq tokenEq_comm t1 t2, Nat.add_comm t1.length]
  simp only [or_comm]

theorem structureSimilarity_comm (s1 s2 : StructureList) :
    structureSimilarity s1 s2 = structureSimilarity s2 s1 := by
  unfold structureSimilarity
  simp only
  rw [lcsTable_comm symbolEq symbolEq_comm s1 s2, Nat.add_comm s1.length]
  simp only [or_comm]

/-- C5: the LCS ratio and the structure similarity do not depend on the order
of their two arguments. -/
theorem lcs_and_structure_symmetric (A B : TokenList) (S T : StructureList) :
    lcsDistance A B = lcsDistance B A ∧ structureSimilarity S T = structureSimilarity T S :=
  ⟨lcsDistance_comm A B, structureSimilarity_comm S T⟩

theorem editDistance_comm (t1 t2 : TokenList) : editDistance t1 t2 = editDistance t2 t1 := by
  unfold editDistance
  simp only
  rw [editTable_comm tokenEq tokenEq_comm t1 t2]
  by_cases h1 : t1.length = 0 <;> by_cases h2 : t2.length = 0
  · simp [h1, h2]
  · simp [h1, h2]
  · simp [h1, h2]
  · simp only [h1, h2, if_false]
    congr 2
    split_ifs <;> first | rfl | (congr 1; omega)

/-! ## Rounding to `double`: the error of one operation, and two evaluations -/

theorem roundTiesEven_eq (x : ℝ) (m : ℤ) (h1 : (m : ℝ) - 1 / 2 < x) (h2 : x < m + 1 / 2) :
    roundTiesEven x = m := by
  unfold roundTiesEven
  have hf : Int.fract x = x - ⌊x⌋ := rfl
  by_cases hm : (m : ℝ) ≤ x
  · have hfl : ⌊x⌋ = m := Int.floor_eq_iff.mpr ⟨hm, by linarith⟩
    rw [if_pos (by rw [hf, hfl]; linarith), hfl]
  · push_neg at hm
    have hfl : ⌊x⌋ = m - 1 := Int.floor_eq_iff.mpr ⟨by push_cast; linarith, by push_cast; linarith⟩
    rw [if_neg (by rw [hf, hfl]; push_cast; linarith),
      if_pos (by rw [hf, hfl]; push_cast; linarith), hfl]
    ring

theorem abs_roundTiesEven_sub_le (x : ℝ) : |(roundTiesEven x : ℝ) - x| ≤ 1 / 2 := by
  unfold roundTiesEven
  have hf : Int.fract x = x - ⌊x⌋ := rfl
  have h0 := Int.fract_nonneg x
  have h1 := Int.fract_lt_one x
  rw [abs_le]
  split_ifs with a b c
  · constructor <;> linarith
  · push_cast; constructor <;> linarith
  · constructor <;> linarith
  · push_cast; constructor <;> linarith

theorem roundTiesEven_nonneg (x : ℝ) (h : 0 ≤ x) : 0 ≤ roundTiesEven x := by
  unfold roundTiesEven
  have := Int.floor_nonneg.mpr h
  split_ifs <;> omega

theorem ulp_pos (x : ℝ) : 0 < ulp x := by
  unfold ulp
  positivity

theorem ulp_eq (x : ℝ) (e : ℤ) (h1 : (2 : ℝ) ^ e ≤ x) (h2 : x < 2 ^ (e + 1)) :
    ulp x = 2 ^ (e - 52) := by
  have hx : 0 < x := lt_of_lt_of_le (by positivity) h1
  unfold ulp
  rw [abs_of_pos hx]
  have ha : e ≤ Int.log 2 x := by
    rw [← Int.zpow_le_iff_le_log (by norm_num) hx]
    exact_mod_cast h1
  have hb : Int.log 2 x < e + 1 := by
    rw [← Int.lt_zpow_iff_log_lt (by norm_num) hx]
    exact_mod_cast h2
  have : Int.log 2 x = e := by omega
  rw [this]

theorem roundDouble_eq (x : ℝ) (e m : ℤ) (hx1 : (2 : ℝ) ^ e ≤ x) (hx2 : x < 2 ^ (e + 1))
    (h1 : ((m : ℝ) - 1 / 2) * 2 ^ (e - 52) < x) (h2 : x < ((m : ℝ) + 1 / 2) * 2 ^ (e - 52)) :
    roundDouble x = (m : ℝ) * 2 ^ (e - 52) := by
  unfold roundDouble
  rw [ulp_eq x e hx1 hx2]
  have hp : (0 : ℝ) < 2 ^ (e - 52) := by positivity
  rw [roundTiesEven_eq _ m ((lt_div_iff₀ hp).mpr h1) ((div_lt_iff₀ hp).mpr h2)]

theorem roundDouble_nonneg (x : ℝ) (h : 0 ≤ x) : 0 ≤ roundDouble x := by
  unfold roundDouble
  have hu := ulp_pos x
  have : 0 ≤ roundTiesEven (x / ulp x) := roundTiesEven_nonneg _ (div_nonneg h hu.le)
  have : (0 : ℝ) ≤ (roundTiesEven (x / ulp x) : ℝ) := by exact_mod_cast this
  positivity

theorem ulp_le (x : ℝ) (hx : 0 < x) : ulp x ≤ 2 ^ (-52 : ℤ) * x := by
  unfold ulp
  rw [abs_of_pos hx, sub_eq_add_neg, zpow_add₀ (by norm_num : (2 : ℝ) ≠ 0), mul_comm]
  apply mul_le_mul_of_nonneg_left _ (by positivity)
  exact_mod_cast Int.zpow_log_le_self (by norm_num : 1 < 2) hx

/-- One rounding moves a positive value by at most the relative error `2 ^ (-53)`. -/
theorem abs_roundDouble_sub_le (x : ℝ) (hx : 0 < x) :
    |roundDouble x - x| ≤ 2 ^ (-53 : ℤ) * x := by
  unfold roundDouble
  have hu := ulp_pos x
  have h := abs_roundTiesEven_sub_le (x / ulp x)
  have e1 : (roundTiesEven (x / ulp x) : ℝ) * ulp x - x =
      ((roundTiesEven (x / ulp x) : ℝ) - x / ulp x) * ulp x := by
    field_simp
  rw [e1, abs_mul, abs_of_pos hu]
  have h3 := ulp_le x hx
  have h4 : |(roundTiesEven (x / ulp x) : ℝ) - x / ulp x| * ulp x ≤ 1 / 2 * ulp x :=
    mul_le_mul_of_nonneg_right h hu.le
  have h5 : (2 : ℝ) ^ (-53 : ℤ) = 1 / 2 * 2 ^ (-52 : ℤ) := by
    rw [show (-53 : ℤ) = -1 + -52 by norm_num, zpow_add₀ (by norm_num : (2 : ℝ) ≠ 0)]
    norm_num
  rw [h5]
  generalize (2 : ℝ) ^ (-52 : ℤ) = c at h3 ⊢
  linarith

theorem roundDouble_zero : roundDouble 0 = 0 := by
  unfold roundDouble roundTiesEven
  simp

theorem roundDouble_bounds (x : ℝ) (hx : 0 < x) :
    (1 - 2 ^ (-53 : ℤ)) * x ≤ roundDouble x ∧ roundDouble x ≤ (1 + 2 ^ (-53 : ℤ)) * x := by
  have h := abs_le.mp (abs_roundDouble_sub_le x hx)
  constructor <;> linarith [h.1, h.2]

theorem cosineDouble_nonneg (d m1 m2 : ℝ) (hd : 0 ≤ d) : 0 ≤ cosineDouble d m1 m2 := by
  unfold cosineDouble
  apply roundDouble_nonneg
  apply div_nonneg hd
  apply roundDouble_nonneg
  exact mul_nonneg (roundDouble_nonneg _ (Real.sqrt_nonneg _)) (roundDouble_nonneg _ (Real.sqrt_nonneg _))

/-- The rounded cosine of two count vectors exceeds 1 by at most `2 ^ (-50)`. -/
theorem cosineDouble_le (d m1 m2 : ℝ) (hd : 0 ≤ d) (h1 : 0 < m1) (h2 : 0 < m2)
    (h : d ^ 2 ≤ m1 * m2) : cosineDouble d m1 m2 ≤ 1 + 2 ^ (-50 : ℤ) := by
  unfold cosineDouble
  have ha : 0 < Real.sqrt m1 := Real.sqrt_pos.mpr h1
  have hb : 0 < Real.sqrt m2 := Real.sqrt_pos.mpr h2
  have hab : d ≤ Real.sqrt m1 * Real.sqrt m2 := by
    rw [← Real.sqrt_mul h1.le]
    exact Real.le_sqrt_of_sq_le h
  have hu : (0 : ℝ) < 1 - 2 ^ (-53 : ℤ) := by norm_num
  have hs1 := (roundDouble_bounds _ ha).1
  have hs2 := (roundDouble_bounds _ hb).1
  have hs1p : 0 < roundDouble (Real.sqrt m1) := lt_of_lt_of_le (mul_pos hu ha) hs1
  have hs2p : 0 < roundDouble (Real.sqrt m2) := lt_of_lt_of_le (mul_pos hu hb) hs2
  have hP := (roundDouble_bounds _ (mul_pos hs1p hs2p)).1
  have hprod : (1 - 2 ^ (-53 : ℤ)) * Real.sqrt m1 * ((1 - 2 ^ (-53 : ℤ)) * Real.sqrt m2) ≤
      roundDouble (Real.sqrt m1) * roundDouble (Real.sqrt m2) :=
    mul_le_mul hs1 hs2 (mul_pos hu hb).le hs1p.le
  have hPp : 0 < roundDouble (roundDouble (Real.sqrt m1) * roundDouble (Real.sqrt m2)) :=
    lt_of_lt_of_le (mul_pos hu (mul_pos hs1p hs2p)) hP
  have hPd : (1 - 2 ^ (-53 : ℤ)) ^ 3 * d ≤
      roundDouble (roundDouble (Real.sqrt m1) * roundDouble (Real.sqrt m2)) := by
    have e1 : (1 - (2 : ℝ) ^ (-53 : ℤ)) ^ 3 * d ≤
        (1 - 2 ^ (-53 : ℤ)) ^ 3 * (Real.sqrt m1 * Real.sqrt m2) :=
      mul_le_mul_of_nonneg_left hab (by positivity)
    have e2 : (1 - (2 : ℝ) ^ (-53 : ℤ)) ^ 3 * (Real.sqrt m1 * Real.sqrt m2) =
        (1 - 2 ^ (-53 : ℤ)) * ((1 - 2 ^ (-53 : ℤ)) * Real.sqrt m1 *
          ((1 - 2 ^ (-53 : ℤ)) * Real.sqrt m2)) := by ring
    have e3 := mul_le_mul_of_nonneg_left hprod hu.le
    linarith
  rcases hd.eq_or_lt with h0 | h0
  · rw [← h0, zero_div, roundDouble_zero]
    positivity
  · have hq := (roundDouble_bounds _ (div_pos h0 hPp)).2
    refine hq.trans ?_
    rw [← mul_div_assoc, div_le_iff₀ hPp]
    have hk : (1 + (2 : ℝ) ^ (-53 : ℤ)) ≤ (1 + 2 ^ (-50 : ℤ)) * (1 - 2 ^ (-53 : ℤ)) ^ 3 := by
      norm_num
    have e4 := mul_le_mul_of_nonneg_right hk h0.le
    have e5 := mul_le_mul_of_nonneg_left hPd (by positivity : (0 : ℝ) ≤ 1 + 2 ^ (-50 : ℤ))
    linarith

/-- The rounded cosine of a count vector with itself is below 1 by at most
`2 ^ (-50)`. -/
theorem cosineDouble_self_ge (m : ℝ) (hm : 0 < m) : 1 - 2 ^ (-50 : ℤ) ≤ cosineDouble m m m := by
  unfold cosineDouble
  have ha : 0 < Real.sqrt m := Real.sqrt_pos.mpr hm
  have hu : (0 : ℝ) < 1 - 2 ^ (-53 : ℤ) := by norm_num
  have hv : (0 : ℝ) < 1 + 2 ^ (-53 : ℤ) := by norm_num
  have hs := roundDouble_bounds _ ha
  have hsp : 0 < roundDouble (Real.sqrt m) := lt_of_lt_of_le (mul_pos hu ha) hs.1
  have hP := roundDouble_bounds _ (mul_pos hsp hsp)
  have hPp : 0 < roundDouble (roundDouble (Real.sqrt m) * roundDouble (Real.sqrt m)) :=
    lt_of_lt_of_le (mul_pos hu (mul_pos hsp hsp)) hP.1
  have hprod : roundDouble (Real.sqrt m) * roundDouble (Real.sqrt m) ≤
      (1 + 2 ^ (-53 : ℤ)) * Real.sqrt m * ((1 + 2 ^ (-53 : ℤ)) * Real.sqrt m) :=
    mul_le_mul hs.2 hs.2 hsp.le (mul_pos hv ha).le
  have hsq : Real.sqrt m * Real.sqrt m = m := Real.mul_self_sqrt hm.le
  have hPm : roundDouble (roundDouble (Real.sqrt m) * roundDouble (Real.sqrt m)) ≤
      (1 + 2 ^ (-53 : ℤ)) ^ 3 * m := by
    have e3 := mul_le_mul_of_nonneg_left hprod hv.le
    have e2 : (1 + (2 : ℝ) ^ (-53 : ℤ)) * ((1 + 2 ^ (-53 : ℤ)) * Real.sqrt m *
        ((1 + 2 ^ (-53 : ℤ)) * Real.sqrt m)) =
        (1 + 2 ^ (-53 : ℤ)) ^ 3 * (Real.sqrt m * Real.sqrt m) := by ring
    rw [e2, hsq] at e3
    linarith [hP.2]
  have hq := (roundDouble_bounds _ (div_pos hm hPp)).1
  refine le_trans ?_ hq
  rw [← mul_div_assoc, le_div_iff₀ hPp]
  have hk : (1 - (2 : ℝ) ^ (-50 : ℤ)) * (1 + 2 ^ (-53 : ℤ)) ^ 3 ≤ 1 - 2 ^ (-53 : ℤ) := by
    norm_num
  have e4 := mul_le_mul_of_nonneg_right hk hm.le
  have e5 := mul_le_mul_of_nonneg_left hPm (by norm_num : (0 : ℝ) ≤ 1 - 2 ^ (-50 : ℤ))
  linarith

/-- The `double` nearest to the square root of 3. -/
theorem roundDouble_sqrt_three :
    roundDouble (Real.sqrt 3) = 7800463371553962 * 2 ^ (-52 : ℤ) := by
  have h := roundDouble_eq (Real.sqrt 3) 0 7800463371553962
    (by rw [Real.le_sqrt (by norm_num)] <;> norm_num)
    (by rw [Real.sqrt_lt' (by norm_num)]; norm_num)
    (by rw [Real.lt_sqrt (by norm_num)]; norm_num)
    (by rw [Real.sqrt_lt' (by norm_num)]; norm_num)
  simpa using h

/-- In `double` arithmetic `3 / (sqrt(3) * sqrt(3))` is the successor of 1. -/
theorem cosineDouble_three : cosineDouble 3 3 3 = 1 + 2 ^ (-52 : ℤ) := by
  unfold cosineDouble
  rw [roundDouble_sqrt_three]
  have hp := roundDouble_eq
    (7800463371553962 * 2 ^ (-52 : ℤ) * (7800463371553962 * 2 ^ (-52 : ℤ))) 1 6755399441055743
    (by norm_num) (by norm_num) (by norm_num) (by norm_num)
  rw [hp]
  have hq := roundDouble_eq (3 / ((6755399441055743 : ℤ) * 2 ^ ((1 : ℤ) - 52))) 0 4503599627370497
    (by norm_num) (by norm_num) (by norm_num) (by norm_num)
  rw [hq]
  norm_num

theorem ngramSimilarity_eval (t1 t2 : TokenList) (n i u : Nat)
    (hlen : n ≤ t1.length ∧ n ≤ t2.length)
    (hi : ngramIntersection (generateNgrams t1 n) (generateNgrams t2 n) = i)
    (hu : ngramTotalUnique (generateNgrams t1 n) (generateNgrams t2 n) = (u : Int))
    (hpos : 0 < u) : ngramSimilarity t1 t2 n = (i : ℝ) / (u : ℝ) := by
  unfold ngramSimilarity
  simp only
  rw [if_neg (by omega), hi, hu, if_pos (by exact_mod_cast hpos), Int.cast_natCast]

theorem lcsDistance_eval (t1 t2 : TokenList) (m n l : Nat) (hm : t1.length = m)
    (hn : t2.length = n) (hpos : 0 < m ∧ 0 < n) (hl : lcsTable tokenEq t1 t2 m n = l) :
    lcsDistance t1 t2 = (2 * (l : ℝ)) / ((m + n : ℕ) : ℝ) := by
  unfold lcsDistance
  simp only
  rw [hm, hn, if_neg (by omega), hl]

theorem editDistance_eval (t1 t2 : TokenList) (m n d : Nat) (hm : t1.length = m)
    (hn : t2.length = n) (hpos : 0 < m ∧ 0 < n) (hd : editTable tokenEq t1 t2 m n = d) :
    editDistance t1 t2 = 1 - (d : ℝ) / ((max m n : ℕ) : ℝ) := by
  unfold editDistance
  simp only
  rw [hm, hn, if_neg (by omega), if_neg (by omega), hd]
  congr 2
  split_ifs <;> (congr 1; omega)

theorem structureSimilarity_nil_left (s2 : StructureList) : structureSimilarity [] s2 = 0 := by
  simp [structureSimilarity]

theorem tokenFrequencySimilarity_of_empty (t1 t2 : TokenList)
    (h : buildFreqMap t1 = [] ∨ buildFreqMap t2 = []) : tokenFrequencySimilarity t1 t2 = 0 := by
  unfold tokenFrequencySimilarity
  simp only
  rw [if_pos]
  rcases h with h | h
  · exact Or.inl (by rw [h]; rfl)
  · exact Or.inr (by rw [h]; rfl)

/-- Past its guards `tokenFrequencySimilarity` returns the rounded cosine of
the three integer sums. -/
theorem tokenFrequencySimilarity_eval (t1 t2 : TokenList) (d m1 m2 : Nat)
    (hd : freqDot (buildFreqMap t1) (buildFreqMap t2) = d)
    (h1 : freqMag (buildFreqMap t1) = m1) (h2 : freqMag (buildFreqMap t2) = m2)
    (hm1 : 0 < m1) (hm2 : 0 < m2) :
    tokenFrequencySimilarity t1 t2 = cosineDouble (d : ℝ) (m1 : ℝ) (m2 : ℝ) := by
  have e1 : (buildFreqMap t1).length ≠ 0 := by
    intro e
    rw [List.length_eq_zero.mp e] at h1
    simp [freqMag] at h1
    omega
  have e2 : (buildFreqMap t2).length ≠ 0 := by
    intro e
    rw [List.length_eq_zero.mp e] at h2
    simp [freqMag] at h2
    omega
  unfold tokenFrequencySimilarity
  simp only
  rw [if_neg (by tauto), hd, h1, h2, if_neg (by omega)]

/-! ## The n-gram score on repeated windows -/

/-- C2, at a failing input: for the token sequences of `a a a a a a a` and
`a a a` the five windows of the first all occur in the second, so
`intersection = 5`, `totalUnique = 5 + 1 - 5 = 1` and the 3-gram score is 5,
outside `[0, 1]`. -/
theorem ngramSimilarity_repeated_windows_five :
    tokenize "a a a a a a a".toList =
      some (List.replicate 7 ⟨TokenType.IDENTIFIER, "a".toList⟩) ∧
    tokenize "a a a".toList = some (List.replicate 3 ⟨TokenType.IDENTIFIER, "a".toList⟩) ∧
    ngramSimilarity (List.replicate 7 ⟨TokenType.IDENTIFIER, "a".toList⟩)
      (List.replicate 3 ⟨TokenType.IDENTIFIER, "a".toList⟩) 3 = 5 ∧
    ¬ (ngramSimilarity (List.replicate 7 ⟨TokenType.IDENTIFIER, "a".toList⟩)
      (List.replicate 3 ⟨TokenType.IDENTIFIER, "a".toList⟩) 3 ≤ 1) := by
  have h := ngramSimilarity_eval (List.replicate 7 ⟨TokenType.IDENTIFIER, "a".toList⟩)
    (List.replicate 3 ⟨TokenType.IDENTIFIER, "a".toList⟩)
    3 5 1 (by decide) (by decide) (by decide) (by decide)
  refine ⟨by decide, by decide, ?_⟩
  rw [h]
  norm_num

/-- C6, at a failing input: swapping the token sequences of `a a a a a a a`
and `a a a` changes the 3-gram score from 5 to 1/5. -/
theorem ngramSimilarity_swap_differs :
    tokenize "a a a a a a a".toList =
      some (List.replicate 7 ⟨TokenType.IDENTIFIER, "a".toList⟩) ∧
    tokenize "a a a".toList = some (List.replicate 3 ⟨TokenType.IDENTIFIER, "a".toList⟩) ∧
    ngramSimilarity (List.replicate 7 ⟨TokenType.IDENTIFIER, "a".toList⟩)
      (List.replicate 3 ⟨TokenType.IDENTIFIER, "a".toList⟩) 3 = 5 ∧
    ngramSimilarity (List.replicate 3 ⟨TokenType.IDENTIFIER, "a".toList⟩)
      (List.replicate 7 ⟨TokenType.IDENTIFIER, "a".toList⟩) 3 = 1 / 5 ∧
    ngramSimilarity (List.replicate 7 ⟨TokenType.IDENTIFIER, "a".toList⟩)
        (List.replicate 3 ⟨TokenType.IDENTIFIER, "a".toList⟩) 3 ≠
      ngramSimilarity (List.replicate 3 ⟨TokenType.IDENTIFIER, "a".toList⟩)
        (List.replicate 7 ⟨TokenType.IDENTIFIER, "a".toList⟩) 3 := by
  have h1 := ngramSimilarity_eval (List.replicate 7 ⟨TokenType.IDENTIFIER, "a".toList⟩)
    (List.replicate 3 ⟨TokenType.IDENTIFIER, "a".toList⟩)
    3 5 1 (by decide) (by decide) (by decide) (by decide)
  have h2 := ngramSimilarity_eval (List.replicate 3 ⟨TokenType.IDENTIFIER, "a".toList⟩)
    (List.replicate 7 ⟨TokenType.IDENTIFIER, "a".toList⟩)
    3 1 5 (by decide) (by decide) (by decide) (by decide)
  refine ⟨by decide, by decide, ?_⟩
  rw [h1, h2]
  norm_num

/-- The overall score of a result of `compare` is the weighted sum of its five
scores. -/
theorem compare_overallScore_formula (code1 code2 : List Char) (r : Result)
    (h : compare code1 code2 = some r) :
    r.overallScore =
      0.30 * r.tokenSimilarity + 0.25 * r.structureSimilarity + 0.20 * r.ngramSimilarity +
      0.15 * r.frequencySimilarity + 0.10 * r.editSimilarity := by
  unfold compare at h
  cases h1 : tokenize code1 with
  | none =>
    rw [h1] at h
    exact Option.noConfusion h
  | some t1 =>
    cases h2 : tokenize code2 with
    | none =>
      rw [h1, h2] at h
      exact Option.noConfusion h
    | some t2 =>
      rw [h1, h2] at h
      obtain rfl := Option.some.inj h
      rfl

/-- The result of `compare` on two texts that `tokenize` accepts. -/
theorem compare_eq_some (code1 code2 : List Char) (t1 t2 : TokenList)
    (h1 : tokenize code1 = some t1) (h2 : tokenize code2 = some t2) :
    compare code1 code2 =
      some
        { tokenSimilarity := lcsDistance t1 t2
          structureSimilarity := structureSimilarity (extractStructure t1) (extractStructure t2)
          ngramSimilarity := ngramSimilarity t1 t2 3
          frequencySimilarity := tokenFrequencySimilarity t1 t2
          editSimilarity := editDistance t1 t2
          overallScore :=
            0.30 * lcsDistance t1 t2 +
            0.25 * structureSimilarity (extractStructure t1) (extractStructure t2) +
            0.20 * ngramSimilarity t1 t2 3 +
            0.15 * tokenFrequencySimilarity t1 t2 +
            0.10 * editDistance t1 t2 } := by
  unfold compare
  rw [h1, h2]

/-- C3, at a failing input: the overall score is always the weighted sum of
the five scores and the weights sum to 1, but on the texts `a a a a a a a` and
`a a a` the five scores are 3/5, 0, 5, 0 and 3/7, so the overall score is
214/175, which is greater than 1. -/
theorem compare_overallScore_exceeds_one :
    (∀ (code1 code2 : List Char) (r : Result), compare code1 code2 = some r →
      r.overallScore =
        0.30 * r.tokenSimilarity +
        0.25 * r.structureSimilarity +
        0.20 * r.ngramSimilarity +
        0.15 * r.frequencySimilarity +
        0.10 * r.editSimilarity) ∧
    ((0.30 : ℝ) + 0.25 + 0.20 + 0.15 + 0.10 = 1) ∧
    ∃ r : Result, compare "a a a a a a a".toList "a a a".toList = some r ∧
      r.tokenSimilarity = 3 / 5 ∧ r.structureSimilarity = 0 ∧ r.ngramSimilarity = 5 ∧
      r.frequencySimilarity = 0 ∧ r.editSimilarity = 3 / 7 ∧
      r.overallScore = 214 / 175 ∧ ¬ (r.overallScore ≤ 1) := by
  have t1 : tokenize "a a a a a a a".toList =
      some (List.replicate 7 ⟨TokenType.IDENTIFIER, "a".toList⟩) := by decide
  have t2 : tokenize "a a a".toList =
      some (List.replicate 3 ⟨TokenType.IDENTIFIER, "a".toList⟩) := by decide
  have h1 := lcsDistance_eval (List.replicate 7 ⟨TokenType.IDENTIFIER, "a".toList⟩)
    (List.replicate 3 ⟨TokenType.IDENTIFIER, "a".toList⟩)
    7 3 3 (by decide) (by decide) (by decide) (by decide)
  have h2 : extractStructure (List.replicate 7 ⟨TokenType.IDENTIFIER, "a".toList⟩) = [] := by
    decide
  have h3 := ngramSimilarity_eval (List.replicate 7 ⟨TokenType.IDENTIFIER, "a".toList⟩)
    (List.replicate 3 ⟨TokenType.IDENTIFIER, "a".toList⟩)
    3 5 1 (by decide) (by decide) (by decide) (by decide)
  have h4 := tokenFrequencySimilarity_of_empty
    (List.replicate 7 ⟨TokenType.IDENTIFIER, "a".toList⟩)
    (List.replicate 3 ⟨TokenType.IDENTIFIER, "a".toList⟩) (Or.inl (by decide))
  have h5 := editDistance_eval (List.replicate 7 ⟨TokenType.IDENTIFIER, "a".toList⟩)
    (List.replicate 3 ⟨TokenType.IDENTIFIER, "a".toList⟩)
    7 3 4 (by decide) (by decide) (by decide) (by decide)
  refine ⟨compare_overallScore_formula, by norm_num, _, compare_eq_some _ _ _ _ t1 t2, ?_⟩
  simp only [h1, h2, h3, h4, h5, structureSimilarity_nil_left]
  norm_num
/-! ## Frequency maps -/

theorem getFrequency_nil (k : List Char) : getFrequency [] k = 0 := rfl

theorem getFrequency_cons (it : FreqItem) (m : FreqMap) (k : List Char) :
    getFrequency (it :: m) k = if it.token = k then it.count else getFrequency m k := by
  simp only [getFrequency, List.find?_cons]
  by_cases h : it.token = k
  · simp [h]
  · have hb : (it.token == k) = false := by simpa using h
    simp only [hb, if_neg h]

theorem getFrequency_of_not_mem (m : FreqMap) (k : List Char)
    (h : k ∉ m.map (fun it => it.token)) : getFrequency m k = 0 := by
  induction m with
  | nil => rfl
  | cons it m ih =>
    simp only [List.map_cons, List.mem_cons, not_or] at h
    rw [getFrequency_cons, if_neg (fun e => h.1 e.symm), ih h.2]

theorem freqDot_nil_left (f2 : FreqMap) : freqDot [] f2 = 0 := rfl

theorem freqDot_cons_left (x : FreqItem) (f1 f2 : FreqMap) :
    freqDot (x :: f1) f2 = x.count * getFrequency f2 x.token + freqDot f1 f2 := by
  simp [freqDot]

theorem freqDot_nil_right (f1 : FreqMap) : freqDot f1 [] = 0 := by
  induction f1 with
  | nil => rfl
  | cons x f1 ih => rw [freqDot_cons_left, ih, getFrequency_nil, Nat.mul_zero]

theorem freqDot_cons_right (it : FreqItem) (f2 : FreqMap)
    (hit : it.token ∉ f2.map (fun it => it.token)) :
    ∀ f1 : FreqMap, (f1.map (fun it => it.token)).Nodup →
      freqDot f1 (it :: f2) = freqDot f1 f2 + it.count * getFrequency f1 it.token := by
  intro f1
  induction f1 with
  | nil => intro _; simp [freqDot_nil_left, getFrequency_nil]
  | cons x f1 ih =>
    intro hnd
    simp only [List.map_cons, List.nodup_cons] at hnd
    rw [freqDot_cons_left, freqDot_cons_left, ih hnd.2, getFrequency_cons, getFrequency_cons]
    by_cases h : it.token = x.token
    · rw [if_pos h, if_pos h.symm]
      have h1 : getFrequency f2 x.token = 0 := getFrequency_of_not_mem _ _ (h ▸ hit)
      have h2 : getFrequency f1 it.token = 0 := getFrequency_of_not_mem _ _ (h ▸ hnd.1)
      rw [h1, h2]
      ring
    · rw [if_neg h, if_neg (fun e => h e.symm)]
      ring

/-- The dot product does not depend on which map is scanned and which is
looked up, for maps without a repeated key. -/
theorem freqDot_comm (f1 : FreqMap) (h1 : (f1.map (fun it => it.token)).Nodup) :
    ∀ f2 : FreqMap, (f2.map (fun it => it.token)).Nodup → freqDot f1 f2 = freqDot f2 f1 := by
  intro f2
  induction f2 with
  | nil => intro _; rw [freqDot_nil_right, freqDot_nil_left]
  | cons it f2 ih =>
    intro hnd
    simp only [List.map_cons, List.nodup_cons] at hnd
    rw [freqDot_cons_right it f2 hnd.1 f1 h1, freqDot_cons_left, ih hnd.2]
    ring

theorem bumpFreq_keys (k : List Char) (m : FreqMap) :
    (bumpFreq k m).map (fun it => it.token) = m.map (fun it => it.token) := by
  induction m with
  | nil => rfl
  | cons it m ih =>
    simp only [bumpFreq]
    split_ifs
    · rfl
    · simp only [List.map_cons, ih]

theorem addToFreqMap_nodup (m : FreqMap) (k : List Char)
    (h : (m.map (fun it => it.token)).Nodup) :
    ((addToFreqMap m k).map (fun it => it.token)).Nodup := by
  unfold addToFreqMap
  split_ifs with h1 h2
  · rw [bumpFreq_keys]
    exact h
  · rw [List.map_append, List.nodup_append]
    refine ⟨h, by simp, ?_⟩
    intro a ha hb
    simp only [List.map_cons, List.map_nil, List.mem_singleton] at hb
    subst hb
    apply h1
    simp only [List.mem_map] at ha
    obtain ⟨it, hit, rfl⟩ := ha
    simp only [List.any_eq_true, beq_iff_eq]
    exact ⟨it, hit, rfl⟩
  · exact h

theorem foldl_addToFreqMap_nodup (t : TokenList) :
    ∀ m : FreqMap, (m.map (fun it => it.token)).Nodup →
      ((t.foldl (fun map tok =>
        if tok.type = TokenType.KEYWORD ∨ tok.type = TokenType.OPERATOR then
          addToFreqMap map tok.value
        else map) m).map (fun it => it.token)).Nodup := by
  induction t with
  | nil => intro m h; exact h
  | cons tok t ih =>
    intro m h
    simp only [List.foldl_cons]
    apply ih
    split_ifs
    · exact addToFreqMap_nodup m _ h
    · exact h

theorem buildFreqMap_nodup (t : TokenList) :
    ((buildFreqMap t).map (fun it => it.token)).Nodup :=
  foldl_addToFreqMap_nodup t [] List.nodup_nil

theorem tokenFrequencySimilarity_comm (t1 t2 : TokenList) :
    tokenFrequencySimilarity t1 t2 = tokenFrequencySimilarity t2 t1 := by
  unfold tokenFrequencySimilarity cosineDouble
  simp only
  rw [freqDot_comm _ (buildFreqMap_nodup t1) _ (buildFreqMap_nodup t2),
    mul_comm (roundDouble (Real.sqrt _))]
  simp only [or_comm]

/-- C7: the edit-distance similarity and the frequency cosine similarity do
not depend on the order of their two arguments; the dot product summed over
the keys of the first map with lookups in the second equals the one summed
over the keys of the second with lookups in the first. -/
theorem edit_and_frequency_symmetric (A B : TokenList) :
    editDistance A B = editDistance B A ∧
    tokenFrequencySimilarity A B = tokenFrequencySimilarity B A ∧
    freqDot (buildFreqMap A) (buildFreqMap B) = freqDot (buildFreqMap B) (buildFreqMap A) :=
  ⟨editDistance_comm A B, tokenFrequencySimilarity_comm A B,
    freqDot_comm _ (buildFreqMap_nodup A) _ (buildFreqMap_nodup B)⟩

/-! ## A text compared with itself -/

theorem lcsTable_self {α : Type} (eq : α → α → Bool) (hrefl : ∀ x, eq x x = true) (a : List α) :
    lcsTable eq a a a.length a.length = a.length := by
  rw [lcsTable_eq_lcsRec eq a a _ _ le_rfl le_rfl, lcsRec_diag eq hrefl a _ le_rfl]

theorem editTable_self {α : Type} (eq : α → α → Bool) (hrefl : ∀ x, eq x x = true)
    (a : List α) : editTable eq a a a.length a.length = 0 := by
  rw [editTable_eq_editRec eq a a _ _ le_rfl le_rfl, editRec_diag eq hrefl a _ le_rfl]

theorem dice_self (m : Nat) (hm : m ≠ 0) : (2 * (m : ℝ)) / ((m + m : ℕ) : ℝ) = 1 := by
  have : (m : ℝ) ≠ 0 := by exact_mod_cast hm
  push_cast
  field_simp
  ring

theorem structureSimilarity_self (s : StructureList) (h : s ≠ []) :
    structureSimilarity s s = 1 := by
  have hl : s.length ≠ 0 := fun e => h (List.length_eq_zero.mp e)
  unfold structureSimilarity
  simp only
  rw [if_neg (by omega), lcsTable_self symbolEq symbolEq_refl]
  exact dice_self _ hl

theorem editDistance_self (t : TokenList) : editDistance t t = 1 := by
  unfold editDistance
  simp only
  rw [editTable_self tokenEq tokenEq_refl]
  split_ifs <;> simp

theorem getFrequency_of_mem (m : FreqMap) (h : (m.map (fun it => it.token)).Nodup)
    (it : FreqItem) (hit : it ∈ m) : getFrequency m it.token = it.count := by
  induction m with
  | nil => simp at hit
  | cons x m ih =>
    simp only [List.map_cons, List.nodup_cons] at h
    rw [getFrequency_cons]
    rcases List.mem_cons.mp hit with rfl | hm
    · rw [if_pos rfl]
    · have hx : x.token ≠ it.token := by
        intro e
        apply h.1
        rw [e]
        exact List.mem_map.mpr ⟨it, hm, rfl⟩
      rw [if_neg hx, ih h.2 hm]

theorem freqDot_self (m : FreqMap) (h : (m.map (fun it => it.token)).Nodup) :
    freqDot m m = freqMag m := by
  unfold freqDot freqMag
  congr 1
  apply List.map_congr_left
  intro it hit
  rw [getFrequency_of_mem m h it hit]

theorem addToFreqMap_ne_nil (m : FreqMap) (k : List Char) : addToFreqMap m k ≠ [] := by
  unfold addToFreqMap
  split_ifs with h1 h2
  · cases m with
    | nil => simp at h1
    | cons x m =>
      simp only [bumpFreq]
      split_ifs <;> simp
  · simp
  · intro e
    rw [e] at h2
    simp [MAX_TOKENS] at h2

theorem bumpFreq_pos (k : List Char) (m : FreqMap) (h : ∀ it ∈ m, 0 < it.count) :
    ∀ it ∈ bumpFreq k m, 0 < it.count := by
  induction m with
  | nil => simp [bumpFreq]
  | cons x m ih =>
    simp only [bumpFreq]
    split_ifs
    · intro it hit
      rcases List.mem_cons.mp hit with rfl | hm
      · simp
      · exact h it (List.mem_cons_of_mem _ hm)
    · intro it hit
      rcases List.mem_cons.mp hit with rfl | hm
      · exact h _ (List.mem_cons_self _ _)
      · exact ih (fun y hy => h y (List.mem_cons_of_mem _ hy)) it hm

theorem addToFreqMap_pos (m : FreqMap) (k : List Char) (h : ∀ it ∈ m, 0 < it.count) :
    ∀ it ∈ addToFreqMap m k, 0 < it.count := by
  unfold addToFreqMap
  split_ifs
  · exact bumpFreq_pos k m h
  · intro it hit
    rcases List.mem_append.mp hit with hm | hm
    · exact h it hm
    · simp only [List.mem_singleton] at hm
      subst hm
      simp
  · exact h

theorem foldl_addToFreqMap_props (t : TokenList) :
    ∀ m : FreqMap, (∀ it ∈ m, 0 < it.count) →
      (m ≠ [] ∨ ∃ tok ∈ t, tok.type = TokenType.KEYWORD ∨ tok.type = TokenType.OPERATOR) →
      (∀ it ∈ t.foldl (fun map tok =>
        if tok.type = TokenType.KEYWORD ∨ tok.type = TokenType.OPERATOR then
          addToFreqMap map tok.value
        else map) m, 0 < it.count) ∧
      t.foldl (fun map tok =>
        if tok.type = TokenType.KEYWORD ∨ tok.type = TokenType.OPERATOR then
          addToFreqMap map tok.value
        else map) m ≠ [] := by
  induction t with
  | nil =>
    intro m hpos hne
    rcases hne with hne | ⟨tok, htok, _⟩
    · exact ⟨hpos, hne⟩
    · simp at htok
  | cons tok t ih =>
    intro m hpos hne
    simp only [List.foldl_cons]
    by_cases hk : tok.type = TokenType.KEYWORD ∨ tok.type = TokenType.OPERATOR
    · rw [if_pos hk]
      exact ih _ (addToFreqMap_pos m _ hpos) (Or.inl (addToFreqMap_ne_nil m _))
    · rw [if_neg hk]
      apply ih _ hpos
      rcases hne with hne | ⟨tok2, htok, hk2⟩
      · exact Or.inl hne
      · rcases List.mem_cons.mp htok with rfl | hm
        · exact absurd hk2 hk
        · exact Or.inr ⟨tok2, hm, hk2⟩

theorem freqMag_pos (m : FreqMap) (hpos : ∀ it ∈ m, 0 < it.count) (hne : m ≠ []) :
    0 < freqMag m := by
  cases m with
  | nil => exact absurd rfl hne
  | cons x m =>
    have := hpos x (List.mem_cons_self _ _)
    simp only [freqMag, List.map_cons, List.sum_cons]
    have : 0 < x.count * x.count := Nat.mul_pos this this
    omega

theorem tokenFrequencySimilarity_nonneg (t1 t2 : TokenList) :
    0 ≤ tokenFrequencySimilarity t1 t2 := by
  unfold tokenFrequencySimilarity
  simp only
  split_ifs
  · exact le_rfl
  · exact le_rfl
  · exact cosineDouble_nonneg _ _ _ (Nat.cast_nonneg _)

/-- The integers of the cosine of a sequence with itself: the dot product is
the squared magnitude, and it is positive when the sequence has a Keyword or
an Operator. -/
theorem freqDot_self_pos (t : TokenList)
    (h : ∃ tok ∈ t, tok.type = TokenType.KEYWORD ∨ tok.type = TokenType.OPERATOR) :
    freqDot (buildFreqMap t) (buildFreqMap t) = freqMag (buildFreqMap t) ∧
    0 < freqMag (buildFreqMap t) := by
  obtain ⟨hpos, hne⟩ := foldl_addToFreqMap_props t [] (by simp) (Or.inr h)
  exact ⟨freqDot_self _ (buildFreqMap_nodup t), freqMag_pos _ hpos hne⟩

theorem extractStructureLoop_ne_nil (tokens : TokenList) :
    ∀ items : StructureList,
      (items ≠ [] ∨ ∃ tok ∈ tokens, tok.type = TokenType.KEYWORD ∨ tok.type = TokenType.OPERATOR) →
      extractStructureLoop tokens items ≠ [] := by
  induction tokens with
  | nil =>
    intro items h
    rcases h with h | ⟨tok, htok, _⟩
    · simpa [extractStructureLoop] using h
    · simp at htok
  | cons tok rest ih =>
    intro items h
    have hrest : (items ≠ [] ∨ ∃ tok ∈ rest, tok.type = TokenType.KEYWORD ∨
        tok.type = TokenType.OPERATOR) → extractStructureLoop rest items ≠ [] := ih items
    have happ : ∀ x : List Char, extractStructureLoop rest (items ++ [x]) ≠ [] :=
      fun x => ih _ (Or.inl (by simp))
    simp only [extractStructureLoop]
    by_cases hfull : items.length ≥ MAX_TOKENS
    · rw [if_pos hfull]
      intro e
      rw [e] at hfull
      simp [MAX_TOKENS] at hfull
    rw [if_neg hfull]
    by_cases hkw : tok.type = TokenType.KEYWORD
    · rw [if_pos hkw]; exact happ _
    rw [if_neg hkw]
    by_cases hop : tok.type = TokenType.OPERATOR
    · have hsep : tok.type ≠ TokenType.SEPARATOR := by rw [hop]; decide
      rw [if_neg hsep, if_pos hop]; exact happ _
    have hr : extractStructureLoop rest items ≠ [] := by
      apply hrest
      rcases h with h | ⟨tok2, htok, hk2⟩
      · exact Or.inl h
      · rcases List.mem_cons.mp htok with rfl | hm
        · rcases hk2 with hk2 | hk2
          · exact absurd hk2 hkw
          · exact absurd hk2 hop
        · exact Or.inr ⟨tok2, hm, hk2⟩
    rw [if_neg hop]
    split_ifs <;> first | exact happ _ | exact hr

/-- The frequency similarity of a sequence with itself is within `2 ^ (-50)`
of 1 when the sequence has a Keyword or an Operator. -/
theorem tokenFrequencySimilarity_self_near_one (t : TokenList)
    (h : ∃ tok ∈ t, tok.type = TokenType.KEYWORD ∨ tok.type = TokenType.OPERATOR) :
    |tokenFrequencySimilarity t t - 1| ≤ 2 ^ (-50 : ℤ) := by
  obtain ⟨hd, hm⟩ := freqDot_self_pos t h
  rw [tokenFrequencySimilarity_eval t t _ _ _ hd rfl rfl hm hm, abs_le]
  have hmr : (0 : ℝ) < (freqMag (buildFreqMap t) : ℝ) := by exact_mod_cast hm
  have hle := cosineDouble_le (freqMag (buildFreqMap t) : ℝ) (freqMag (buildFreqMap t) : ℝ)
    (freqMag (buildFreqMap t) : ℝ) hmr.le hmr hmr (by rw [pow_two])
  have hge := cosineDouble_self_ge (freqMag (buildFreqMap t) : ℝ) hmr
  constructor <;> linarith

theorem not_isIdChar_of_isOperatorChar {c : Char} (h : isOperatorChar c = true) :
    isIdChar c = false := by
  simp only [isOperatorChar, Bool.or_eq_true, beq_iff_eq] at h
  rcases h with (((((((((((((rfl | rfl) | rfl) | rfl) | rfl) | rfl) | rfl) | rfl) | rfl) | rfl) |
    rfl) | rfl) | rfl) | rfl) <;> decide

theorem not_isSeparator_of_isOperatorChar {c : Char} (h : isOperatorChar c = true) :
    isSeparator c = false := by
  simp only [isOperatorChar, Bool.or_eq_true, beq_iff_eq] at h
  rcases h with (((((((((((((rfl | rfl) | rfl) | rfl) | rfl) | rfl) | rfl) | rfl) | rfl) | rfl) |
    rfl) | rfl) | rfl) | rfl) <;> decide

theorem keywords_plain :
    ∀ k ∈ keywords, k ≠ [] ∧ ∀ c ∈ k, isOperatorChar c = false := by decide

theorem wellFormed_value_ne_nil (tok : Token) (h : wellFormedToken tok = true) :
    tok.value ≠ [] := by
  obtain ⟨type, value⟩ := tok
  intro e
  simp only at e
  subst e
  cases type <;> revert h <;> decide

theorem wellFormed_operator_chars (tok : Token) (h : wellFormedToken tok = true)
    (hop : tok.type = TokenType.OPERATOR) : ∀ c ∈ tok.value, isOperatorChar c = true := by
  obtain ⟨type, value⟩ := tok
  simp only at hop
  subst hop
  simp only [wellFormedToken, Bool.and_eq_true, List.all_eq_true] at h
  exact h.2

theorem wellFormed_plain_chars (tok : Token) (h : wellFormedToken tok = true)
    (hop : tok.type ≠ TokenType.OPERATOR) : ∀ c ∈ tok.value, isOperatorChar c = false := by
  obtain ⟨type, value⟩ := tok
  simp only at hop
  cases type with
  | KEYWORD =>
    simp only [wellFormedToken] at h
    exact (keywords_plain value (mem_keywords_of_isKeyword h)).2
  | IDENTIFIER =>
    simp only [wellFormedToken, Bool.and_eq_true, List.all_eq_true] at h
    intro c hc
    by_contra hcon
    have := not_isIdChar_of_isOperatorChar (Bool.eq_true_of_not_eq_false hcon)
    rw [h.2 c hc] at this
    exact Bool.noConfusion this
  | OPERATOR => exact absurd rfl hop
  | LITERAL =>
    simp only [wellFormedToken, Bool.or_eq_true, beq_iff_eq] at h
    rcases h with rfl | rfl <;> decide
  | SEPARATOR =>
    simp only [wellFormedToken, Bool.and_eq_true, List.all_eq_true] at h
    intro c hc
    by_contra hcon
    have := not_isSeparator_of_isOperatorChar (Bool.eq_true_of_not_eq_false hcon)
    rw [h.2 c hc] at this
    exact Bool.noConfusion this
  | COMMENT => simp [wellFormedToken] at h
  | WHITESPACE => simp [wellFormedToken] at h
  | UNKNOWN => simp [wellFormedToken] at h

/-- Two lists that agree up to and behind the first occurrence of `x`. -/
theorem append_cons_inj_left {x : Char} : ∀ (l1 l2 r1 r2 : List Char), x ∉ l1 → x ∉ l2 →
    l1 ++ x :: r1 = l2 ++ x :: r2 → l1 = l2 := by
  intro l1
  induction l1 with
  | nil =>
    intro l2 r1 r2 _ h2 e
    cases l2 with
    | nil => rfl
    | cons y l2 =>
      simp only [List.nil_append, List.cons_append, List.cons.injEq] at e
      exact absurd (e.1 ▸ List.mem_cons_self _ _) h2
  | cons y l1 ih =>
    intro l2 r1 r2 h1 h2 e
    cases l2 with
    | nil =>
      simp only [List.nil_append, List.cons_append, List.cons.injEq] at e
      exact absurd (e.1 ▸ List.mem_cons_self _ _) h1
    | cons z l2 =>
      simp only [List.cons_append, List.cons.injEq] at e
      rw [e.1, ih l2 r1 r2 (fun hm => h1 (List.mem_cons_of_mem _ hm))
        (fun hm => h2 (List.mem_cons_of_mem _ hm)) e.2]

/-- The first lexeme of an n-gram string is determined by the string when the
other string starts with the lexeme of a token that is not an Operator. -/
theorem first_lexeme_eq (a b : Token) (ha : wellFormedToken a = true)
    (hb : wellFormedToken b = true) (hbop : b.type ≠ TokenType.OPERATOR) (ra rb : List Char)
    (e : a.value ++ '|' :: ra = b.value ++ '|' :: rb) : a.value = b.value := by
  have hbplain := wellFormed_plain_chars b hb hbop
  by_cases haop : a.type = TokenType.OPERATOR
  · exfalso
    have haops := wellFormed_operator_chars a ha haop
    have hane := wellFormed_value_ne_nil a ha
    have hbne := wellFormed_value_ne_nil b hb
    obtain ⟨x, xs, hx⟩ := List.exists_cons_of_ne_nil hane
    obtain ⟨y, ys, hy⟩ := List.exists_cons_of_ne_nil hbne
    rw [hx, hy] at e
    simp only [List.cons_append, List.cons.injEq] at e
    have h1 := haops x (by rw [hx]; exact List.mem_cons_self _ _)
    have h2 := hbplain y (by rw [hy]; exact List.mem_cons_self _ _)
    rw [e.1, h2] at h1
    exact Bool.noConfusion h1
  · have haplain := wellFormed_plain_chars a ha haop
    have hbar : isOperatorChar '|' = true := by decide
    apply append_cons_inj_left _ _ ra rb _ _ e
    · intro hm
      rw [haplain _ hm] at hbar
      exact Bool.noConfusion hbar
    · intro hm
      rw [hbplain _ hm] at hbar
      exact Bool.noConfusion hbar

/-! ## Members of an n-gram set -/

theorem mem_generateNgramsLoop (tokens : TokenList) (n : Nat) (g : List Char) :
    ∀ (k i4 : Nat) (set : NgramSet), g ∈ generateNgramsLoop tokens n k i4 set →
      g ∈ set ∨ ∃ j, i4 ≤ j ∧ j < i4 + k ∧ g = ngramAt tokens n j := by
  intro k
  induction k with
  | zero => intro i4 set h; exact Or.inl (by simpa [generateNgramsLoop] using h)
  | succ k ih =>
    intro i4 set h
    simp only [generateNgramsLoop] at h
    split_ifs at h with hfull
    · exact Or.inl h
    · rcases ih _ _ h with hm | ⟨j, h1, h2, h3⟩
      · rcases List.mem_append.mp hm with hs | hs
        · exact Or.inl hs
        · exact Or.inr ⟨i4, le_rfl, by omega, List.mem_singleton.mp hs⟩
      · exact Or.inr ⟨j, by omega, by omega, h3⟩

theorem ngramAt_eq_cons (tokens : TokenList) (n j : Nat) (hj : j < tokens.length) :
    ngramAt tokens (n + 1) j =
      tokens[j].value ++ '|' :: ((tokens.drop (j + 1)).take n).flatMap
        (fun t => t.value ++ ['|']) := by
  unfold ngramAt
  rw [List.drop_eq_getElem_cons hj, List.take_succ_cons, List.flatMap_cons]
  simp

/-- Every string of an n-gram set starts with the lexeme of a token of the
sequence, followed by `|`. -/
theorem mem_generateNgrams (tokens : TokenList) (n : Nat) (g : List Char)
    (h : g ∈ generateNgrams tokens (n + 1)) :
    ∃ a ∈ tokens, ∃ r, g = a.value ++ '|' :: r := by
  rcases mem_generateNgramsLoop tokens (n + 1) g _ 0 [] h with hm | ⟨j, _, h2, h3⟩
  · simp at hm
  · have hj : j < tokens.length := by omega
    exact ⟨tokens[j], List.getElem_mem hj, _, h3.trans (ngramAt_eq_cons tokens n j hj)⟩

theorem ngramSimilarity_of_disjoint (t1 t2 : TokenList) (n : Nat)
    (h : ∀ g ∈ generateNgrams t1 n, g ∉ generateNgrams t2 n) : ngramSimilarity t1 t2 n = 0 := by
  have hi : ngramIntersection (generateNgrams t1 n) (generateNgrams t2 n) = 0 := by
    unfold ngramIntersection
    rw [List.length_eq_zero, List.filter_eq_nil_iff]
    intro g hg hin
    simp only [ngramInSet, List.any_eq_true, beq_iff_eq] at hin
    obtain ⟨g2, hg2, rfl⟩ := hin
    exact h g hg hg2
  unfold ngramSimilarity
  simp only [hi]
  split_ifs <;> simp

/-! ## The structure sequence as a filter of the token sequence -/

theorem extractStructureLoop_eq (tokens : TokenList) :
    ∀ items : StructureList, items.length + tokens.length ≤ MAX_TOKENS →
      extractStructureLoop tokens items = items ++ tokens.filterMap structureSymbol := by
  induction tokens with
  | nil => intro items _; simp [extractStructureLoop]
  | cons tok rest ih =>
    intro items hlen
    simp only [List.length_cons] at hlen
    have hfull : ¬ items.length ≥ MAX_TOKENS := by omega
    have happ : ∀ x : List Char, extractStructureLoop rest (items ++ [x]) =
        items ++ x :: rest.filterMap structureSymbol := by
      intro x
      rw [ih (items ++ [x]) (by simp only [List.length_append, List.length_singleton]; omega)]
      simp
    have hskip := ih items (by omega)
    simp only [extractStructureLoop, if_neg hfull, List.filterMap_cons, structureSymbol]
    by_cases hkw : tok.type = TokenType.KEYWORD
    · simp only [if_pos hkw]; exact happ _
    simp only [if_neg hkw]
    by_cases hsep : tok.type = TokenType.SEPARATOR
    · simp only [if_pos hsep]
      split_ifs <;> first | exact happ _ | exact hskip
    simp only [if_neg hsep]
    by_cases hop : tok.type = TokenType.OPERATOR
    · simp only [if_pos hop]; exact happ _
    · simp only [if_neg hop]; exact hskip

theorem extractStructure_eq (tokens : TokenList) (h : tokens.length ≤ MAX_TOKENS) :
    extractStructure tokens = tokens.filterMap structureSymbol := by
  rw [extractStructure, extractStructureLoop_eq tokens [] (by simpa using h)]
  rfl

theorem op_mem_extractStructure (tokens : TokenList) (h : tokens.length ≤ MAX_TOKENS)
    (tok : Token) (htok : tok ∈ tokens) (hop : tok.type = TokenType.OPERATOR) :
    "OP".toList ∈ extractStructure tokens := by
  rw [extractStructure_eq tokens h, List.mem_filterMap]
  refine ⟨tok, htok, ?_⟩
  simp [structureSymbol, hop]

/-! ## Sequences without a common element -/

theorem matchAt_of_disjoint {α : Type} (eq : α → α → Bool) (a b : List α)
    (h : ∀ x ∈ a, ∀ y ∈ b, eq x y = false) (i j : Nat) : matchAt eq a b i j = false := by
  unfold matchAt
  split
  · next x y hx hy =>
    exact h x (List.getElem?_mem hx) y (List.getElem?_mem hy)
  · rfl

theorem lcsRec_of_disjoint {α : Type} (eq : α → α → Bool) (a b : List α)
    (h : ∀ x ∈ a, ∀ y ∈ b, eq x y = false) : ∀ i j, lcsRec eq a b i j = 0 := by
  intro i
  induction i with
  | zero => intro j; rw [lcsRec_zero_left]
  | succ i ih =>
    intro j
    induction j with
    | zero => rw [lcsRec_zero_right]
    | succ j ihj =>
      rw [lcsRec_succ, matchAt_of_disjoint eq a b h, ih (j + 1), ihj]
      simp

theorem lcsDistance_of_disjoint (t1 t2 : TokenList)
    (h : ∀ x ∈ t1, ∀ y ∈ t2, ¬ (x.type = y.type ∧ x.value = y.value)) :
    lcsDistance t1 t2 = 0 := by
  have heq : ∀ x ∈ t1, ∀ y ∈ t2, tokenEq x y = false := by
    intro x hx y hy
    by_contra hcon
    have := Bool.eq_true_of_not_eq_false hcon
    simp only [tokenEq, Bool.and_eq_true, beq_iff_eq] at this
    exact h x hx y hy ⟨this.2, this.1⟩
  unfold lcsDistance
  simp only
  split_ifs
  · rfl
  · rw [lcsTable_eq_lcsRec tokenEq t1 t2 _ _ le_rfl le_rfl, lcsRec_of_disjoint tokenEq t1 t2 heq]
    simp

theorem structureSimilarity_of_disjoint (s1 s2 : StructureList) (h : ∀ x ∈ s1, x ∉ s2) :
    structureSimilarity s1 s2 = 0 := by
  have heq : ∀ x ∈ s1, ∀ y ∈ s2, symbolEq x y = false := by
    intro x hx y hy
    by_contra hcon
    have := Bool.eq_true_of_not_eq_false hcon
    simp only [symbolEq, beq_iff_eq] at this
    exact h x hx (this ▸ hy)
  unfold structureSimilarity
  split_ifs
  · rfl
  · simp only
    rw [lcsTable_eq_lcsRec symbolEq s1 s2 _ _ le_rfl le_rfl,
      lcsRec_of_disjoint symbolEq s1 s2 heq]
    simp

theorem mem_addToFreqMap_keys (m : FreqMap) (k x : List Char)
    (h : x ∈ (addToFreqMap m k).map (fun it => it.token)) :
    x ∈ m.map (fun it => it.token) ∨ x = k := by
  unfold addToFreqMap at h
  split_ifs at h
  · rw [bumpFreq_keys] at h
    exact Or.inl h
  · rw [List.map_append, List.mem_append] at h
    rcases h with h | h
    · exact Or.inl h
    · exact Or.inr (by simpa using h)
  · exact Or.inl h

theorem mem_foldl_addToFreqMap_keys (t : TokenList) (x : List Char) :
    ∀ m : FreqMap,
      x ∈ (t.foldl (fun map tok =>
        if tok.type = TokenType.KEYWORD ∨ tok.type = TokenType.OPERATOR then
          addToFreqMap map tok.value
        else map) m).map (fun it => it.token) →
      x ∈ m.map (fun it => it.token) ∨
        ∃ tok ∈ t, (tok.type = TokenType.KEYWORD ∨ tok.type = TokenType.OPERATOR) ∧
          tok.value = x := by
  induction t with
  | nil => intro m h; exact Or.inl h
  | cons tok t ih =>
    intro m h
    simp only [List.foldl_cons] at h
    rcases ih _ h with hm | ⟨tok2, h1, h2, h3⟩
    · split_ifs at hm with hk
      · rcases mem_addToFreqMap_keys m _ x hm with hm2 | rfl
        · exact Or.inl hm2
        · exact Or.inr ⟨tok, List.mem_cons_self _ _, hk, rfl⟩
      · exact Or.inl hm
    · exact Or.inr ⟨tok2, List.mem_cons_of_mem _ h1, h2, h3⟩

/-- Every key of a frequency map is the lexeme of a Keyword or Operator token. -/
theorem mem_buildFreqMap_keys (t : TokenList) (x : List Char)
    (h : x ∈ (buildFreqMap t).map (fun it => it.token)) :
    ∃ tok ∈ t, (tok.type = TokenType.KEYWORD ∨ tok.type = TokenType.OPERATOR) ∧
      tok.value = x := by
  rcases mem_foldl_addToFreqMap_keys t x [] h with hm | hm
  · simp at hm
  · exact hm

theorem freqDot_of_disjoint (f1 f2 : FreqMap)
    (h : ∀ k ∈ f1.map (fun it => it.token), k ∉ f2.map (fun it => it.token)) :
    freqDot f1 f2 = 0 := by
  induction f1 with
  | nil => rfl
  | cons x f1 ih =>
    rw [freqDot_cons_left, ih (fun k hk => h k (List.mem_cons_of_mem _ hk)),
      getFrequency_of_not_mem f2 x.token (h _ (List.mem_cons_self _ _)), Nat.mul_zero]

theorem tokenFrequencySimilarity_of_disjoint (t1 t2 : TokenList)
    (h : ∀ k ∈ (buildFreqMap t1).map (fun it => it.token),
      k ∉ (buildFreqMap t2).map (fun it => it.token)) :
    tokenFrequencySimilarity t1 t2 = 0 := by
  unfold tokenFrequencySimilarity cosineDouble
  simp only [freqDot_of_disjoint _ _ h]
  split_ifs <;> simp [roundDouble_zero]

/-- A Keyword or Operator lexeme shared by two well-formed sequences belongs
to a token that the sequences share. -/
theorem shared_key_shared_token (t1 t2 : TokenList) (h1 : TokensOK t1) (h2 : TokensOK t2)
    (x y : Token) (hx : x ∈ t1) (hy : y ∈ t2)
    (hxk : x.type = TokenType.KEYWORD ∨ x.type = TokenType.OPERATOR)
    (hyk : y.type = TokenType.KEYWORD ∨ y.type = TokenType.OPERATOR)
    (e : x.value = y.value) : x.type = y.type := by
  have hxw := h1.2 x hx
  have hyw := h2.2 y hy
  obtain ⟨c, cs, hc⟩ := List.exists_cons_of_ne_nil (wellFormed_value_ne_nil x hxw)
  have hcx : c ∈ x.value := by rw [hc]; exact List.mem_cons_self _ _
  have hcy : c ∈ y.value := e ▸ hcx
  rcases hxk with hxk | hxk <;> rcases hyk with hyk | hyk
  · rw [hxk, hyk]
  · exfalso
    have a1 := wellFormed_plain_chars x hxw (by rw [hxk]; decide) c hcx
    have a2 := wellFormed_operator_chars y hyw hyk c hcy
    rw [a1] at a2
    exact Bool.noConfusion a2
  · exfalso
    have a1 := wellFormed_operator_chars x hxw hxk c hcx
    have a2 := wellFormed_plain_chars y hyw (by rw [hyk]; decide) c hcy
    rw [a1] at a2
    exact Bool.noConfusion a2
  · rw [hxk, hyk]

/-! ## Texts without a common token -/

theorem generateNgrams_disjoint (t1 t2 : TokenList) (n : Nat) (h1 : TokensOK t1)
    (h2 : TokensOK t2)
    (hs : ∀ s ∈ extractStructure t1, s ∉ extractStructure t2)
    (hlex : ∀ x ∈ t1, ∀ y ∈ t2, x.value ≠ y.value) :
    ∀ g ∈ generateNgrams t1 (n + 1), g ∉ generateNgrams t2 (n + 1) := by
  intro g hg1 hg2
  obtain ⟨a, ha, ra, ea⟩ := mem_generateNgrams t1 n g hg1
  obtain ⟨b, hb, rb, eb⟩ := mem_generateNgrams t2 n g hg2
  have e : a.value ++ '|' :: ra = b.value ++ '|' :: rb := ea.symm.trans eb
  by_cases hbop : b.type = TokenType.OPERATOR
  · by_cases haop : a.type = TokenType.OPERATOR
    · exact hs _ (op_mem_extractStructure t1 h1.1 a ha haop)
        (op_mem_extractStructure t2 h2.1 b hb hbop)
    · exact hlex a ha b hb (first_lexeme_eq b a (h2.2 b hb) (h1.2 a ha) haop rb ra e.symm).symm
  · exact hlex a ha b hb (first_lexeme_eq a b (h1.2 a ha) (h2.2 b hb) hbop ra rb e)

/-- C8 as amended: for two texts on which `tokenize` returns token sequences
that have no token in common (same kind and same lexeme) and whose structure
sequences have no symbol in common, `compare` returns LCS ratio, structure
similarity and frequency similarity 0; the 3-gram similarity is 0 as well when
no lexeme of a token of one text is the lexeme of a token of the other. -/
theorem compare_without_common_token (code1 code2 : List Char) (t1 t2 : TokenList)
    (ht1 : tokenize code1 = some t1) (ht2 : tokenize code2 = some t2)
    (h1 : ∀ x ∈ t1, ∀ y ∈ t2, ¬ (x.type = y.type ∧ x.value = y.value))
    (h2 : ∀ s ∈ extractStructure t1, s ∉ extractStructure t2) :
    ∃ r : Result, compare code1 code2 = some r ∧
      r.tokenSimilarity = 0 ∧ r.structureSimilarity = 0 ∧ r.frequencySimilarity = 0 ∧
      ((∀ x ∈ t1, ∀ y ∈ t2, x.value ≠ y.value) → r.ngramSimilarity = 0) := by
  have ok1 := tokenize_ok code1 t1 ht1
  have ok2 := tokenize_ok code2 t2 ht2
  refine ⟨_, compare_eq_some code1 code2 t1 t2 ht1 ht2, lcsDistance_of_disjoint _ _ h1,
    structureSimilarity_of_disjoint _ _ h2, ?_, ?_⟩
  · apply tokenFrequencySimilarity_of_disjoint
    intro k hk1 hk2
    obtain ⟨x, hx, hxk, rfl⟩ := mem_buildFreqMap_keys _ _ hk1
    obtain ⟨y, hy, hyk, e⟩ := mem_buildFreqMap_keys _ _ hk2
    exact h1 x hx y hy
      ⟨shared_key_shared_token _ _ ok1 ok2 x y hx hy hxk hyk e.symm, e.symm⟩
  · intro hlex
    exact ngramSimilarity_of_disjoint _ _ 3
      (generateNgrams_disjoint _ _ 2 ok1 ok2 h2 hlex)

/-- Two texts that satisfy the hypotheses of the amended C8, with all four
scores 0: `int x = 5;` and `foo bar baz`. -/
theorem compare_without_common_token_witness :
    ∃ r : Result, compare "int x = 5;".toList "foo bar baz".toList = some r ∧
      r.tokenSimilarity = 0 ∧ r.structureSimilarity = 0 ∧ r.frequencySimilarity = 0 ∧
      r.ngramSimilarity = 0 :=
  have h := compare_without_common_token "int x = 5;".toList "foo bar baz".toList
    [⟨TokenType.KEYWORD, "int".toList⟩, ⟨TokenType.IDENTIFIER, "x".toList⟩,
     ⟨TokenType.OPERATOR, "=".toList⟩, ⟨TokenType.LITERAL, "NUM".toList⟩,
     ⟨TokenType.SEPARATOR, ";".toList⟩]
    [⟨TokenType.IDENTIFIER, "foo".toList⟩, ⟨TokenType.IDENTIFIER, "bar".toList⟩,
     ⟨TokenType.IDENTIFIER, "baz".toList⟩]
    (by decide) (by decide) (by decide) (by decide)
  h.elim fun r hr => ⟨r, hr.1, hr.2.1, hr.2.2.1, hr.2.2.2.1, hr.2.2.2.2 (by decide)⟩

/-- C8 fails as stated: on the texts `NUM NUM NUM` and `1 2 3` `tokenize`
returns three Identifiers and three Literals with lexeme `NUM`, which have no
token in common and empty structure sequences, yet the 3-gram similarity that
`compare` returns is 1. -/
theorem compare_without_common_token_ngram_one :
    tokenize "NUM NUM NUM".toList =
      some (List.replicate 3 ⟨TokenType.IDENTIFIER, "NUM".toList⟩) ∧
    tokenize "1 2 3".toList = some (List.replicate 3 ⟨TokenType.LITERAL, "NUM".toList⟩) ∧
    (∀ x ∈ List.replicate 3 (⟨TokenType.IDENTIFIER, "NUM".toList⟩ : Token),
      ∀ y ∈ List.replicate 3 (⟨TokenType.LITERAL, "NUM".toList⟩ : Token),
      ¬ (x.type = y.type ∧ x.value = y.value)) ∧
    (∀ s ∈ extractStructure (List.replicate 3 ⟨TokenType.IDENTIFIER, "NUM".toList⟩),
      s ∉ extractStructure (List.replicate 3 ⟨TokenType.LITERAL, "NUM".toList⟩)) ∧
    ∃ r : Result, compare "NUM NUM NUM".toList "1 2 3".toList = some r ∧
      r.ngramSimilarity = 1 := by
  have ht1 : tokenize "NUM NUM NUM".toList =
      some (List.replicate 3 ⟨TokenType.IDENTIFIER, "NUM".toList⟩) := by decide
  have ht2 : tokenize "1 2 3".toList =
      some (List.replicate 3 ⟨TokenType.LITERAL, "NUM".toList⟩) := by decide
  refine ⟨ht1, ht2, by decide, by decide, _, compare_eq_some _ _ _ _ ht1 ht2, ?_⟩
  have h := ngramSimilarity_eval (List.replicate 3 ⟨TokenType.IDENTIFIER, "NUM".toList⟩)
    (List.replicate 3 ⟨TokenType.LITERAL, "NUM".toList⟩)
    3 1 1 (by decide) (by decide) (by decide) (by decide)
  simp only [h]
  norm_num
/-! ## The structure sequence and short sequences -/

theorem structureSymbol_eq_specSymbol (tok : Token) : structureSymbol tok = specSymbol tok := by
  obtain ⟨type, value⟩ := tok
  cases type <;> simp [structureSymbol, specSymbol]

/-- C14: for a token sequence of at most `MAX_TOKENS` tokens,
`extractStructure` is the order-preserving filter-map of the sequence under
the mapping of the specification, and its result is no longer than the
sequence. -/
theorem extractStructure_refines_spec (ts : TokenList) (h : ts.length ≤ MAX_TOKENS) :
    extractStructure ts = specStructure ts ∧ (extractStructure ts).length ≤ ts.length := by
  have e : extractStructure ts = specStructure ts := by
    rw [extractStructure_eq ts h, specStructure]
    exact List.filterMap_congr (fun tok _ => structureSymbol_eq_specSymbol tok)
  refine ⟨e, ?_⟩
  rw [e, specStructure]
  exact List.length_filterMap_le _ _

/-- A sequence within the capacity to which C14 applies: the tokens of
`if (a == b) { return 1; }`. -/
theorem extractStructure_refines_spec_witness :
    ∃ ts : TokenList, tokenize "if (a == b) \x7b return 1; \x7d".toList = some ts ∧
      ts.length ≤ MAX_TOKENS ∧ extractStructure ts = specStructure ts ∧
      (extractStructure ts).length ≤ ts.length :=
  ⟨[⟨TokenType.KEYWORD, "if".toList⟩, ⟨TokenType.SEPARATOR, "(".toList⟩,
    ⟨TokenType.IDENTIFIER, "a".toList⟩, ⟨TokenType.OPERATOR, "==".toList⟩,
    ⟨TokenType.IDENTIFIER, "b".toList⟩, ⟨TokenType.SEPARATOR, ")".toList⟩,
    ⟨TokenType.SEPARATOR, "\x7b".toList⟩, ⟨TokenType.KEYWORD, "return".toList⟩,
    ⟨TokenType.LITERAL, "NUM".toList⟩, ⟨TokenType.SEPARATOR, ";".toList⟩,
    ⟨TokenType.SEPARATOR, "\x7d".toList⟩],
    by decide, by decide, extractStructure_refines_spec _ (by decide)⟩

/-- C12: when either token sequence has fewer than 3 tokens the 3-gram
similarity is 0, whatever the tokens are. -/
theorem ngramSimilarity_short (t1 t2 : TokenList) (h : t1.length < 3 ∨ t2.length < 3) :
    ngramSimilarity t1 t2 3 = 0 := by
  unfold ngramSimilarity
  rw [if_pos h]

/-- Two identical sequences of two tokens, to which C12 applies: the tokens
of `x y`. -/
theorem ngramSimilarity_short_witness :
    ∃ ts : TokenList, tokenize "x y".toList = some ts ∧
      (ts.length < 3 ∨ ts.length < 3) ∧ ngramSimilarity ts ts 3 = 0 :=
  ⟨[⟨TokenType.IDENTIFIER, "x".toList⟩, ⟨TokenType.IDENTIFIER, "y".toList⟩],
    by decide, by decide, ngramSimilarity_short _ _ (by decide)⟩
/-! ## Renamed identifiers and empty token sequences -/

theorem extractStructureLoop_rename (A B : TokenList)
    (h : List.Forall₂ sameUpToIdentifier A B) :
    ∀ items : StructureList, extractStructureLoop A items = extractStructureLoop B items := by
  induction h with
  | nil => intro items; rfl
  | cons hxy _ ih =>
    intro items
    rcases hxy with rfl | ⟨hx, hy⟩
    · simp only [extractStructureLoop, ih]
    · simp only [extractStructureLoop, hx, hy, ih]
      simp

theorem foldl_addToFreqMap_rename (A B : TokenList)
    (h : List.Forall₂ sameUpToIdentifier A B) :
    ∀ m : FreqMap,
      A.foldl (fun map tok =>
        if tok.type = TokenType.KEYWORD ∨ tok.type = TokenType.OPERATOR then
          addToFreqMap map tok.value
        else map) m =
      B.foldl (fun map tok =>
        if tok.type = TokenType.KEYWORD ∨ tok.type = TokenType.OPERATOR then
          addToFreqMap map tok.value
        else map) m := by
  induction h with
  | nil => intro m; rfl
  | cons hxy _ ih =>
    intro m
    rcases hxy with rfl | ⟨hx, hy⟩
    · simp only [List.foldl_cons, ih]
    · simp only [List.foldl_cons, hx, hy]
      simpa using ih m

/-- C11: renaming identifiers changes neither the structure sequence nor the
Keyword/Operator frequency map: for token sequences `A` and `B` of equal
length whose tokens at every position are equal or both Identifiers,
`extractStructure A = extractStructure B`, the frequency maps are equal and
the frequency similarity of `A` and `B` is that of `A` with itself; when `A`
has a Keyword or Operator token, the structure similarity is 1 and the
frequency similarity is within `2 ^ (-50)` of 1.  The frequency similarity is
not 1, however: for the tokens of `int x = x + 1;` and of `int y = y + 1;`
the three sums are 3 and `3 / (sqrt(3) * sqrt(3))` in `double` arithmetic is
`1 + 2 ^ (-52)`, printed `1.0000000000000002`. -/
theorem renaming_identifiers_frequency_above_one :
    (∀ A B : TokenList, A.length = B.length →
      (∀ (i : Nat) (hA : i < A.length) (hB : i < B.length),
        sameUpToIdentifier (A.get ⟨i, hA⟩) (B.get ⟨i, hB⟩)) →
      extractStructure A = extractStructure B ∧ buildFreqMap A = buildFreqMap B ∧
      tokenFrequencySimilarity A B = tokenFrequencySimilarity A A ∧
      ((∃ tok ∈ A, tok.type = TokenType.KEYWORD ∨ tok.type = TokenType.OPERATOR) →
        structureSimilarity (extractStructure A) (extractStructure B) = 1 ∧
        |tokenFrequencySimilarity A B - 1| ≤ 2 ^ (-50 : ℤ))) ∧
    (∃ A B : TokenList, tokenize "int x = x + 1;".toList = some A ∧
      tokenize "int y = y + 1;".toList = some B ∧ A.length = B.length ∧
      List.Forall₂ sameUpToIdentifier A B ∧
      (∃ tok ∈ A, tok.type = TokenType.KEYWORD ∨ tok.type = TokenType.OPERATOR) ∧
      freqDot (buildFreqMap A) (buildFreqMap B) = 3 ∧ freqMag (buildFreqMap A) = 3 ∧
      freqMag (buildFreqMap B) = 3 ∧
      structureSimilarity (extractStructure A) (extractStructure B) = 1 ∧
      tokenFrequencySimilarity A B = 1 + 2 ^ (-52 : ℤ) ∧
      tokenFrequencySimilarity A B ≠ 1) := by
  have gen : ∀ A B : TokenList, A.length = B.length →
      (∀ (i : Nat) (hA : i < A.length) (hB : i < B.length),
        sameUpToIdentifier (A.get ⟨i, hA⟩) (B.get ⟨i, hB⟩)) →
      extractStructure A = extractStructure B ∧ buildFreqMap A = buildFreqMap B ∧
      tokenFrequencySimilarity A B = tokenFrequencySimilarity A A ∧
      ((∃ tok ∈ A, tok.type = TokenType.KEYWORD ∨ tok.type = TokenType.OPERATOR) →
        structureSimilarity (extractStructure A) (extractStructure B) = 1 ∧
        |tokenFrequencySimilarity A B - 1| ≤ 2 ^ (-50 : ℤ)) := by
    intro A B hlen h
    have hf : List.Forall₂ sameUpToIdentifier A B := List.forall₂_iff_get.mpr ⟨hlen, h⟩
    have hs : extractStructure A = extractStructure B := extractStructureLoop_rename A B hf []
    have hm : buildFreqMap A = buildFreqMap B := foldl_addToFreqMap_rename A B hf []
    have hfreq : tokenFrequencySimilarity A B = tokenFrequencySimilarity A A := by
      unfold tokenFrequencySimilarity
      rw [← hm]
    refine ⟨hs, hm, hfreq, ?_⟩
    intro hk
    constructor
    · rw [← hs]
      exact structureSimilarity_self _ (extractStructureLoop_ne_nil _ [] (Or.inr hk))
    · rw [hfreq]
      exact tokenFrequencySimilarity_self_near_one A hk
  refine ⟨gen, [⟨TokenType.KEYWORD, "int".toList⟩, ⟨TokenType.IDENTIFIER, "x".toList⟩,
      ⟨TokenType.OPERATOR, "=".toList⟩, ⟨TokenType.IDENTIFIER, "x".toList⟩,
      ⟨TokenType.OPERATOR, "+".toList⟩, ⟨TokenType.LITERAL, "NUM".toList⟩,
      ⟨TokenType.SEPARATOR, ";".toList⟩],
    [⟨TokenType.KEYWORD, "int".toList⟩, ⟨TokenType.IDENTIFIER, "y".toList⟩,
      ⟨TokenType.OPERATOR, "=".toList⟩, ⟨TokenType.IDENTIFIER, "y".toList⟩,
      ⟨TokenType.OPERATOR, "+".toList⟩, ⟨TokenType.LITERAL, "NUM".toList⟩,
      ⟨TokenType.SEPARATOR, ";".toList⟩],
    by decide, by decide, by decide, by decide, by decide, by decide, by decide, by decide,
    ?_, ?_⟩
  · have hf : List.Forall₂ sameUpToIdentifier
        [⟨TokenType.KEYWORD, "int".toList⟩, ⟨TokenType.IDENTIFIER, "x".toList⟩,
          ⟨TokenType.OPERATOR, "=".toList⟩, ⟨TokenType.IDENTIFIER, "x".toList⟩,
          ⟨TokenType.OPERATOR, "+".toList⟩, ⟨TokenType.LITERAL, "NUM".toList⟩,
          ⟨TokenType.SEPARATOR, ";".toList⟩]
        [⟨TokenType.KEYWORD, "int".toList⟩, ⟨TokenType.IDENTIFIER, "y".toList⟩,
          ⟨TokenType.OPERATOR, "=".toList⟩, ⟨TokenType.IDENTIFIER, "y".toList⟩,
          ⟨TokenType.OPERATOR, "+".toList⟩, ⟨TokenType.LITERAL, "NUM".toList⟩,
          ⟨TokenType.SEPARATOR, ";".toList⟩] := by decide
    exact ((gen _ _ (List.forall₂_iff_get.mp hf).1 (List.forall₂_iff_get.mp hf).2).2.2.2
      (by decide)).1
  · have e : tokenFrequencySimilarity
        [⟨TokenType.KEYWORD, "int".toList⟩, ⟨TokenType.IDENTIFIER, "x".toList⟩,
          ⟨TokenType.OPERATOR, "=".toList⟩, ⟨TokenType.IDENTIFIER, "x".toList⟩,
          ⟨TokenType.OPERATOR, "+".toList⟩, ⟨TokenType.LITERAL, "NUM".toList⟩,
          ⟨TokenType.SEPARATOR, ";".toList⟩]
        [⟨TokenType.KEYWORD, "int".toList⟩, ⟨TokenType.IDENTIFIER, "y".toList⟩,
          ⟨TokenType.OPERATOR, "=".toList⟩, ⟨TokenType.IDENTIFIER, "y".toList⟩,
          ⟨TokenType.OPERATOR, "+".toList⟩, ⟨TokenType.LITERAL, "NUM".toList⟩,
          ⟨TokenType.SEPARATOR, ";".toList⟩] = 1 + 2 ^ (-52 : ℤ) := by
      rw [tokenFrequencySimilarity_eval _ _ 3 3 3 (by decide) (by decide) (by decide)
        (by decide) (by decide)]
      exact_mod_cast cosineDouble_three
    refine ⟨e, ?_⟩
    rw [e]
    norm_num

/-- C13: when `tokenize` returns the empty sequence for both texts, `compare`
returns LCS, structure, 3-gram and frequency scores 0, edit-distance
similarity 1 and overall score 0.10; when it returns the empty sequence for
exactly one text and a non-empty sequence for the other, all five scores and
the overall score are 0. -/
theorem compare_empty_boundary (code1 code2 : List Char) :
    ((tokenize code1 = some [] ∧ tokenize code2 = some []) →
      ∃ r : Result, compare code1 code2 = some r ∧
        r.tokenSimilarity = 0 ∧ r.structureSimilarity = 0 ∧ r.ngramSimilarity = 0 ∧
        r.frequencySimilarity = 0 ∧ r.editSimilarity = 1 ∧ r.overallScore = 0.10) ∧
    (∀ t : TokenList, t ≠ [] →
      ((tokenize code1 = some [] ∧ tokenize code2 = some t) ∨
        (tokenize code1 = some t ∧ tokenize code2 = some [])) →
      ∃ r : Result, compare code1 code2 = some r ∧
        r.tokenSimilarity = 0 ∧ r.structureSimilarity = 0 ∧ r.ngramSimilarity = 0 ∧
        r.frequencySimilarity = 0 ∧ r.editSimilarity = 0 ∧ r.overallScore = 0) := by
  constructor
  · rintro ⟨h1, h2⟩
    refine ⟨_, compare_eq_some _ _ _ _ h1 h2, ?_⟩
    simp [lcsDistance, structureSimilarity, ngramSimilarity, tokenFrequencySimilarity,
      editDistance, extractStructure, extractStructureLoop, buildFreqMap]
  · intro t ht h
    have hl : t.length ≠ 0 := fun e => ht (List.length_eq_zero.mp e)
    rcases h with ⟨h1, h2⟩ | ⟨h1, h2⟩
    · refine ⟨_, compare_eq_some _ _ _ _ h1 h2, ?_⟩
      simp [lcsDistance, structureSimilarity, ngramSimilarity, tokenFrequencySimilarity,
        editDistance, extractStructure, extractStructureLoop, buildFreqMap, hl]
    · refine ⟨_, compare_eq_some _ _ _ _ h1 h2, ?_⟩
      simp [lcsDistance, structureSimilarity, ngramSimilarity, tokenFrequencySimilarity,
        editDistance, extractStructure, extractStructureLoop, buildFreqMap, hl]

/-- Texts at the boundary of C13: the empty text against a blank, and a blank
against `x`. -/
theorem compare_empty_boundary_witness :
    (∃ r : Result, compare "".toList " ".toList = some r ∧
      r.tokenSimilarity = 0 ∧ r.structureSimilarity = 0 ∧ r.ngramSimilarity = 0 ∧
      r.frequencySimilarity = 0 ∧ r.editSimilarity = 1 ∧ r.overallScore = 0.10) ∧
    (∃ r : Result, compare " ".toList "x".toList = some r ∧
      r.tokenSimilarity = 0 ∧ r.structureSimilarity = 0 ∧ r.ngramSimilarity = 0 ∧
      r.frequencySimilarity = 0 ∧ r.editSimilarity = 0 ∧ r.overallScore = 0) :=
  ⟨(compare_empty_boundary "".toList " ".toList).1 ⟨by decide, by decide⟩,
   (compare_empty_boundary " ".toList "x".toList).2 [⟨TokenType.IDENTIFIER, "x".toList⟩]
     (by decide) (Or.inl ⟨by decide, by decide⟩)⟩

/-! ## The range of the frequency similarity -/

theorem cauchy_schwarz_step (d c x m s : Nat) (h : d * d ≤ m * s) :
    (c * x + d) * (c * x + d) ≤ (c * c + m) * (x * x + s) := by
  have h1 : 2 * (c * x * d) ≤ c * c * s + m * (x * x) := by
    by_contra hcon
    push_neg at hcon
    have h2 : (c * c * s + m * (x * x)) * (c * c * s + m * (x * x)) <
        (2 * (c * x * d)) * (2 * (c * x * d)) := Nat.mul_lt_mul'' hcon hcon
    have h3 : (c * x) * (c * x) * (d * d) ≤ (c * x) * (c * x) * (m * s) :=
      Nat.mul_le_mul_left _ h
    zify at h2 h3
    nlinarith [sq_nonneg ((c : ℤ) * c * s - m * (x * x))]
  nlinarith

/-- The Cauchy-Schwarz inequality for the sums taken over the items of a map. -/
theorem freq_cauchy_schwarz (g : List Char → Nat) (f : FreqMap) :
    (f.map (fun it => it.count * g it.token)).sum * (f.map (fun it => it.count * g it.token)).sum ≤
      freqMag f * (f.map (fun it => g it.token * g it.token)).sum := by
  induction f with
  | nil => simp [freqMag]
  | cons it f ih =>
    simp only [freqMag, List.map_cons, List.sum_cons] at ih ⊢
    exact cauchy_schwarz_step _ _ _ _ _ ih

theorem getFrequency_map_le (g : List Char → Nat) (f : FreqMap) (k : List Char) :
    getFrequency (f.map (fun it => { token := it.token, count := g it.token })) k ≤ g k := by
  induction f with
  | nil => simp [getFrequency_nil]
  | cons it f ih =>
    rw [List.map_cons, getFrequency_cons]
    split_ifs with h
    · simp only at h ⊢
      rw [h]
    · exact ih

/-- The squared lookups in `f2` over the keys of `f1` sum to at most the
squared magnitude of `f2`. -/
theorem sum_lookup_sq_le (f1 f2 : FreqMap) (h1 : (f1.map (fun it => it.token)).Nodup)
    (h2 : (f2.map (fun it => it.token)).Nodup) :
    (f1.map (fun it => getFrequency f2 it.token * getFrequency f2 it.token)).sum ≤
      freqMag f2 := by
  have hkeys : (f1.map (fun it : FreqItem =>
      ({ token := it.token, count := getFrequency f2 it.token } : FreqItem))).map
      (fun it => it.token) = f1.map (fun it => it.token) := by
    rw [List.map_map]
    rfl
  have hdot : freqDot (f1.map (fun it : FreqItem =>
      ({ token := it.token, count := getFrequency f2 it.token } : FreqItem))) f2 =
      (f1.map (fun it => getFrequency f2 it.token * getFrequency f2 it.token)).sum := by
    unfold freqDot
    rw [List.map_map]
    rfl
  rw [← hdot, freqDot_comm _ (by rw [hkeys]; exact h1) f2 h2]
  unfold freqDot freqMag
  apply List.sum_le_sum
  intro jt hjt
  apply Nat.mul_le_mul_left
  have := getFrequency_map_le (fun k => getFrequency f2 k) f1 jt.token
  rw [getFrequency_of_mem f2 h2 jt hjt] at this
  exact this

theorem freqDot_sq_le (t1 t2 : TokenList) :
    freqDot (buildFreqMap t1) (buildFreqMap t2) ^ 2 ≤
      freqMag (buildFreqMap t1) * freqMag (buildFreqMap t2) := by
  have h1 := freq_cauchy_schwarz (fun k => getFrequency (buildFreqMap t2) k) (buildFreqMap t1)
  have h2 := sum_lookup_sq_le (buildFreqMap t1) (buildFreqMap t2) (buildFreqMap_nodup t1)
    (buildFreqMap_nodup t2)
  rw [pow_two]
  exact h1.trans (Nat.mul_le_mul_left _ h2)

/-- The frequency similarity exceeds 1 by at most `2 ^ (-50)`. -/
theorem tokenFrequencySimilarity_le (t1 t2 : TokenList) :
    tokenFrequencySimilarity t1 t2 ≤ 1 + 2 ^ (-50 : ℤ) := by
  have hz : (0 : ℝ) ≤ 1 + 2 ^ (-50 : ℤ) := by positivity
  unfold tokenFrequencySimilarity
  simp only
  split_ifs with h1 h2
  · exact hz
  · exact hz
  · have hm1 : 0 < freqMag (buildFreqMap t1) := by omega
    have hm2 : 0 < freqMag (buildFreqMap t2) := by omega
    apply cosineDouble_le _ _ _ (Nat.cast_nonneg _) (by exact_mod_cast hm1)
      (by exact_mod_cast hm2)
    exact_mod_cast freqDot_sq_le t1 t2

/-- C15: the dot product is not negative, its square is at most the product
of the two squared magnitudes, the frequency similarity is 0 when either
frequency map is empty, and it lies between 0 and `1 + 2 ^ (-50)`.  It does
not lie in `[0, 1]`: for the tokens of `a = b + c - d;` against themselves the
three sums are 3 and `3 / (sqrt(3) * sqrt(3))` in `double` arithmetic is
`1 + 2 ^ (-52)`, printed `1.0000000000000002`. -/
theorem tokenFrequencySimilarity_exceeds_one :
    (∀ t1 t2 : TokenList,
      0 ≤ tokenFrequencySimilarity t1 t2 ∧
      tokenFrequencySimilarity t1 t2 ≤ 1 + 2 ^ (-50 : ℤ) ∧
      0 ≤ freqDot (buildFreqMap t1) (buildFreqMap t2) ∧
      freqDot (buildFreqMap t1) (buildFreqMap t2) ^ 2 ≤
        freqMag (buildFreqMap t1) * freqMag (buildFreqMap t2) ∧
      ((buildFreqMap t1 = [] ∨ buildFreqMap t2 = []) → tokenFrequencySimilarity t1 t2 = 0)) ∧
    (∃ t : TokenList, tokenize "a = b + c - d;".toList = some t ∧
      freqDot (buildFreqMap t) (buildFreqMap t) = 3 ∧ freqMag (buildFreqMap t) = 3 ∧
      tokenFrequencySimilarity t t = 1 + 2 ^ (-52 : ℤ) ∧
      ¬ tokenFrequencySimilarity t t ≤ 1) := by
  refine ⟨fun t1 t2 => ⟨tokenFrequencySimilarity_nonneg t1 t2, tokenFrequencySimilarity_le t1 t2,
    Nat.zero_le _, freqDot_sq_le t1 t2, tokenFrequencySimilarity_of_empty t1 t2⟩,
    [⟨TokenType.IDENTIFIER, "a".toList⟩, ⟨TokenType.OPERATOR, "=".toList⟩,
      ⟨TokenType.IDENTIFIER, "b".toList⟩, ⟨TokenType.OPERATOR, "+".toList⟩,
      ⟨TokenType.IDENTIFIER, "c".toList⟩, ⟨TokenType.OPERATOR, "-".toList⟩,
      ⟨TokenType.IDENTIFIER, "d".toList⟩, ⟨TokenType.SEPARATOR, ";".toList⟩],
    by decide, by decide, by decide, ?_⟩
  have e : tokenFrequencySimilarity
      [⟨TokenType.IDENTIFIER, "a".toList⟩, ⟨TokenType.OPERATOR, "=".toList⟩,
        ⟨TokenType.IDENTIFIER, "b".toList⟩, ⟨TokenType.OPERATOR, "+".toList⟩,
        ⟨TokenType.IDENTIFIER, "c".toList⟩, ⟨TokenType.OPERATOR, "-".toList⟩,
        ⟨TokenType.IDENTIFIER, "d".toList⟩, ⟨TokenType.SEPARATOR, ";".toList⟩]
      [⟨TokenType.IDENTIFIER, "a".toList⟩, ⟨TokenType.OPERATOR, "=".toList⟩,
        ⟨TokenType.IDENTIFIER, "b".toList⟩, ⟨TokenType.OPERATOR, "+".toList⟩,
        ⟨TokenType.IDENTIFIER, "c".toList⟩, ⟨TokenType.OPERATOR, "-".toList⟩,
        ⟨TokenType.IDENTIFIER, "d".toList⟩, ⟨TokenType.SEPARATOR, ";".toList⟩] =
      1 + 2 ^ (-52 : ℤ) := by
    rw [tokenFrequencySimilarity_eval _ _ 3 3 3 (by decide) (by decide) (by decide)
      (by decide) (by decide)]
    exact_mod_cast cosineDouble_three
  refine ⟨e, ?_⟩
  rw [e]
  norm_num

/-! ## Block comments -/

theorem dropWhile_append_stop (p : Char → Bool) (h : Char) (r : List Char) (hp : p h = false) :
    ∀ a : List Char, (a ++ h :: r).dropWhile p = a.dropWhile p ++ h :: r := by
  intro a
  induction a with
  | nil => simp [List.dropWhile_cons, hp]
  | cons x a ih =>
    simp only [List.cons_append, List.dropWhile_cons]
    split_ifs
    · exact ih
    · rfl

theorem takeWhile_append_stop (p : Char → Bool) (h : Char) (r : List Char) (hp : p h = false) :
    ∀ a : List Char, (a ++ h :: r).takeWhile p = a.takeWhile p := by
  intro a
  induction a with
  | nil => simp [List.takeWhile_cons, hp]
  | cons x a ih =>
    simp only [List.cons_append, List.takeWhile_cons]
    split_ifs
    · rw [ih]
    · rfl

/-- One iteration on a text `a` followed by more text behaves as on `a` alone,
when `a` has no quote and no `/`, its last character is not an operator
character, and the text behind it starts with a character that continues
neither a number nor a word. -/
theorem tokenizeStep_append (x : Char) (a r : List Char) (h : Char) (list : TokenList)
    (hx : x ≠ DQUOTE ∧ x ≠ SQUOTE ∧ x ≠ '/')
    (hlast : a = [] → isOperatorChar x = false)
    (hnum : isNumChar h = false) (hid : isIdChar h = false) :
    tokenizeStep (x :: a ++ h :: r) list =
      (tokenizeStep (x :: a) list).map (fun next => (next.1 ++ h :: r, next.2)) := by
  obtain ⟨hdq, hsq, hsl⟩ := hx
  have e1 : (x == '/') = false := by simpa using hsl
  have e2 : (x == DQUOTE || x == SQUOTE) = false := by simp [hdq, hsq]
  unfold tokenizeStep
  simp only [List.cons_append, e1, e2, Bool.false_and, Bool.false_eq_true, ↓reduceIte]
  by_cases h1 : isspace x = true
  · simp only [h1, ↓reduceIte, Option.map_some']
  simp only [h1, Bool.false_eq_true, ↓reduceIte]
  by_cases h5 : isdigit x = true
  · simp only [h5, ↓reduceIte, Option.map_some']
    rw [← List.cons_append, dropWhile_append_stop isNumChar h r hnum]
  simp only [h5, Bool.false_eq_true, ↓reduceIte]
  by_cases h6 : (isalpha x || x == '_') = true
  · simp only [h6, ↓reduceIte]
    rw [← List.cons_append, dropWhile_append_stop isIdChar h r hid,
      takeWhile_append_stop isIdChar h r hid]
    split_ifs <;> rfl
  simp only [h6, Bool.false_eq_true, ↓reduceIte]
  by_cases h7 : isOperatorChar x = true
  · simp only [h7, ↓reduceIte]
    cases a with
    | nil =>
      rw [hlast rfl] at h7
      exact Bool.noConfusion h7
    | cons d a2 =>
      simp only [List.cons_append]
      split_ifs <;> rfl
  simp only [h7, Bool.false_eq_true, ↓reduceIte]
  split_ifs <;> rfl

/-- Within a text without quote and `/`, one iteration leaves a suffix of the
text behind the first character. -/
theorem tokenizeStep_suffix (x : Char) (a : List Char) (list : TokenList)
    (next : List Char × TokenList)
    (hx : x ≠ DQUOTE ∧ x ≠ SQUOTE ∧ x ≠ '/')
    (hstep : tokenizeStep (x :: a) list = some next) :
    List.IsSuffix next.1 a := by
  obtain ⟨hdq, hsq, hsl⟩ := hx
  have e1 : (x == '/') = false := by simpa using hsl
  have e2 : (x == DQUOTE || x == SQUOTE) = false := by simp [hdq, hsq]
  unfold tokenizeStep at hstep
  simp only [e1, e2, Bool.false_and, Bool.false_eq_true, ↓reduceIte] at hstep
  by_cases h1 : isspace x = true
  · simp only [h1, ↓reduceIte] at hstep
    obtain rfl := Option.some.inj hstep
    exact List.suffix_refl a
  simp only [h1, Bool.false_eq_true, ↓reduceIte] at hstep
  by_cases h5 : isdigit x = true
  · have hc : isNumChar x = true := by simp [isNumChar, h5]
    simp only [h5, ↓reduceIte, List.dropWhile_cons, hc] at hstep
    obtain rfl := Option.some.inj hstep
    exact List.dropWhile_suffix _
  simp only [h5, Bool.false_eq_true, ↓reduceIte] at hstep
  by_cases h6 : (isalpha x || x == '_') = true
  · simp only [h6, ↓reduceIte, List.dropWhile_cons, isIdChar_of_start h6] at hstep
    split_ifs at hstep <;>
      (obtain rfl := Option.some.inj hstep; exact List.dropWhile_suffix _)
  simp only [h6, Bool.false_eq_true, ↓reduceIte] at hstep
  by_cases h7 : isOperatorChar x = true
  · simp only [h7, ↓reduceIte] at hstep
    cases a with
    | nil =>
      obtain rfl := Option.some.inj hstep
      exact List.suffix_refl _
    | cons d a2 =>
      simp only at hstep
      split_ifs at hstep
      · obtain rfl := Option.some.inj hstep
        exact List.suffix_cons d a2
      · obtain rfl := Option.some.inj hstep
        exact List.suffix_refl _
  simp only [h7, Bool.false_eq_true, ↓reduceIte] at hstep
  split_ifs at hstep <;> (obtain rfl := Option.some.inj hstep; exact List.suffix_refl a)

theorem skipBlockComment_body (b : List Char) :
    ∀ c : List Char, (∀ p q : List Char, c ≠ p ++ '*' :: '/' :: q) →
      skipBlockComment (c ++ '*' :: '/' :: b) = b := by
  intro c
  induction c with
  | nil => intro _; simp [skipBlockComment]
  | cons y c ih =>
    intro hc
    have hc2 : ∀ p q : List Char, c ≠ p ++ '*' :: '/' :: q := by
      intro p q e
      exact hc (y :: p) q (by rw [e]; rfl)
    cases c with
    | nil =>
      simp only [List.cons_append, List.nil_append, skipBlockComment]
      simp
    | cons z c2 =>
      have hyz : ¬ (y = '*' ∧ z = '/') := by
        rintro ⟨rfl, rfl⟩
        exact hc [] c2 rfl
      have e : ((y == '*') && (z == '/')) = false := by
        simpa using hyz
      have := ih hc2
      simp only [List.cons_append] at this ⊢
      rw [skipBlockComment, e]
      simpa using this

/-- The loop started on `a ++ "/*" ++ c ++ "*/" ++ b` and on `a ++ " " ++ b`
gives the same result. -/
theorem tokenizeLoop_block_comment (b c : List Char)
    (hc : ∀ p q : List Char, c ≠ p ++ '*' :: '/' :: q) :
    ∀ (n : Nat) (a : List Char), a.length ≤ n →
      (∀ x ∈ a, x ≠ DQUOTE ∧ x ≠ SQUOTE ∧ x ≠ '/') →
      (∀ x, a.getLast? = some x → isOperatorChar x = false) →
      ∀ (list : TokenList) (f g : Nat),
        (a ++ '/' :: '*' :: (c ++ '*' :: '/' :: b)).length ≤ f →
        (a ++ ' ' :: b).length ≤ g →
        tokenizeLoop f (a ++ '/' :: '*' :: (c ++ '*' :: '/' :: b)) list =
          tokenizeLoop g (a ++ ' ' :: b) list := by
  intro n
  induction n with
  | zero =>
    intro a hlen _ _ list f g hf hg
    have : a = [] := List.length_eq_zero.mp (by omega)
    subst this
    simp only [List.nil_append] at hf hg ⊢
    rw [tokenizeLoop_unfold _ _ _ f hf, tokenizeLoop_unfold _ _ _ g hg]
    have s1 : tokenizeStep ('/' :: '*' :: (c ++ '*' :: '/' :: b)) list = some (b, list) := by
      have e := skipBlockComment_body b c hc
      simp only [tokenizeStep, List.head?_cons, List.tail_cons, e]
      rfl
    have s2 : tokenizeStep (' ' :: b) list = some (b, list) := rfl
    rw [s1, s2]
  | succ n ih =>
    intro a hlen ha hl list f g hf hg
    cases a with
    | nil => exact ih [] (by simp) ha hl list f g hf hg
    | cons x a =>
      have hx := ha x (List.mem_cons_self _ _)
      have hlast : a = [] → isOperatorChar x = false := by
        intro e
        subst e
        exact hl x rfl
      simp only [List.cons_append] at hf hg ⊢
      have s1 : tokenizeStep (x :: (a ++ '/' :: '*' :: (c ++ '*' :: '/' :: b))) list =
          (tokenizeStep (x :: a) list).map
            (fun next => (next.1 ++ '/' :: '*' :: (c ++ '*' :: '/' :: b), next.2)) :=
        tokenizeStep_append x a _ '/' list hx hlast (by decide) (by decide)
      have s2 : tokenizeStep (x :: (a ++ ' ' :: b)) list =
          (tokenizeStep (x :: a) list).map (fun next => (next.1 ++ ' ' :: b, next.2)) :=
        tokenizeStep_append x a _ ' ' list hx hlast (by decide) (by decide)
      rw [tokenizeLoop_unfold _ _ _ f hf, tokenizeLoop_unfold _ _ _ g hg, s1, s2]
      cases hstep : tokenizeStep (x :: a) list with
      | none => rfl
      | some next =>
        have hsuf := tokenizeStep_suffix x a list next hx hstep
        simp only [Option.map_some']
        apply ih
        · have := hsuf.length_le
          simp only [List.length_cons] at hlen
          omega
        · intro y hy
          exact ha y (List.mem_cons_of_mem _ (hsuf.subset hy))
        · intro y hy
          apply hl y
          have hne : next.1 ≠ [] := by
            intro e
            rw [e] at hy
            simp at hy
          have key : ∀ s : List Char, List.IsSuffix s a → s ≠ [] →
              (x :: a).getLast? = s.getLast? := by
            rintro s ⟨p, rfl⟩ hs
            rw [show x :: (p ++ s) = (x :: p) ++ s from rfl,
              List.getLast?_append_of_ne_nil _ hs]
          rw [key _ hsuf hne]
          exact hy
        · exact le_rfl
        · exact le_rfl

theorem cstr_append_of_mem (a r : List Char) (h : NUL ∈ a) : cstr (a ++ r) = cstr a := by
  induction a with
  | nil => simp at h
  | cons x a ih =>
    simp only [cstr, List.cons_append, List.takeWhile_cons]
    by_cases hx : x = NUL
    · simp [hx]
    · have hm : NUL ∈ a := by
        rcases List.mem_cons.mp h with e | e
        · exact absurd e.symm hx
        · exact e
      have := ih hm
      simp only [cstr] at this
      simp [hx, this]

theorem cstr_append_of_not_mem (a r : List Char) (h : NUL ∉ a) :
    cstr (a ++ r) = a ++ cstr r := by
  unfold cstr
  apply List.takeWhile_append_of_pos
  intro x hx
  have : x ≠ NUL := fun e => h (e ▸ hx)
  simpa using this

/-- The tokenizer has the same result on `a ++ "/*" ++ c ++ "*/" ++ b` and on
`a ++ " " ++ b`, whether it is a token sequence or the overrun of the word
buffer. -/
theorem tokenize_block_comment_eq (a b c : List Char)
    (ha : ∀ x ∈ a, x ≠ DQUOTE ∧ x ≠ SQUOTE ∧ x ≠ '/')
    (hlast : ∀ x, a.getLast? = some x → isOperatorChar x = false)
    (hc : ¬ List.IsInfix "*/".toList c) (hnul : NUL ∉ c) :
    tokenize (a ++ "/*".toList ++ c ++ "*/".toList ++ b) = tokenize (a ++ " ".toList ++ b) := by
  have e1 : a ++ "/*".toList ++ c ++ "*/".toList ++ b =
      a ++ ('/' :: '*' :: (c ++ '*' :: '/' :: b)) := by
    simp [List.append_assoc]
  have e2 : a ++ " ".toList ++ b = a ++ ' ' :: b := by
    simp [List.append_assoc]
  rw [e1, e2]
  unfold tokenize
  by_cases hn : NUL ∈ a
  · rw [cstr_append_of_mem a _ hn, cstr_append_of_mem a _ hn]
  · have hc2 : ∀ p q : List Char, c ≠ p ++ '*' :: '/' :: q := by
      intro p q e
      exact hc ⟨p, q, by rw [e]; simp⟩
    have c1 : cstr ('/' :: '*' :: (c ++ '*' :: '/' :: b)) =
        '/' :: '*' :: (c ++ '*' :: '/' :: cstr b) := by
      have := cstr_append_of_not_mem ('/' :: '*' :: (c ++ ['*', '/'])) b (by
        simp only [List.mem_cons, List.mem_append, List.not_mem_nil, or_false, not_or]
        exact ⟨by decide, by decide, hnul, by decide, by decide⟩)
      simpa using this
    have c2 : cstr (' ' :: b) = ' ' :: cstr b :=
      cstr_append_of_not_mem [' '] b (by decide)
    rw [cstr_append_of_not_mem a _ hn, cstr_append_of_not_mem a _ hn, c1, c2]
    exact tokenizeLoop_block_comment (cstr b) c hc2 a.length a le_rfl ha hlast [] _ _
      le_rfl le_rfl

/-- C16 as amended: a block comment whose body `c` has no `*/` and no NUL,
placed behind a text `a` that has no quote and no `/` and does not end in an
operator character, is skipped like a blank: when `tokenize` returns a token
sequence for `a ++ " " ++ b`, it returns the same sequence for
`a ++ "/*" ++ c ++ "*/" ++ b`, and conversely. -/
theorem tokenize_skips_block_comment (a b c : List Char) (ts : TokenList)
    (ha : ∀ x ∈ a, x ≠ DQUOTE ∧ x ≠ SQUOTE ∧ x ≠ '/')
    (hlast : ∀ x, a.getLast? = some x → isOperatorChar x = false)
    (hc : ¬ List.IsInfix "*/".toList c) (hnul : NUL ∉ c) :
    tokenize (a ++ "/*".toList ++ c ++ "*/".toList ++ b) = some ts ↔
      tokenize (a ++ " ".toList ++ b) = some ts := by
  rw [tokenize_block_comment_eq a b c ha hlast hc hnul]

/-- A text to which the amended C16 applies: `int x; /* note */ x = 1;` has
the tokens of `int x;  x = 1;`. -/
theorem tokenize_skips_block_comment_witness :
    tokenize ("int x; ".toList ++ " ".toList ++ " x = 1;".toList) =
      some [⟨TokenType.KEYWORD, "int".toList⟩, ⟨TokenType.IDENTIFIER, "x".toList⟩,
        ⟨TokenType.SEPARATOR, ";".toList⟩, ⟨TokenType.IDENTIFIER, "x".toList⟩,
        ⟨TokenType.OPERATOR, "=".toList⟩, ⟨TokenType.LITERAL, "NUM".toList⟩,
        ⟨TokenType.SEPARATOR, ";".toList⟩] ∧
    tokenize ("int x; ".toList ++ "/*".toList ++ " note ".toList ++ "*/".toList ++
      " x = 1;".toList) =
      some [⟨TokenType.KEYWORD, "int".toList⟩, ⟨TokenType.IDENTIFIER, "x".toList⟩,
        ⟨TokenType.SEPARATOR, ";".toList⟩, ⟨TokenType.IDENTIFIER, "x".toList⟩,
        ⟨TokenType.OPERATOR, "=".toList⟩, ⟨TokenType.LITERAL, "NUM".toList⟩,
        ⟨TokenType.SEPARATOR, ";".toList⟩] :=
  ⟨by decide,
    (tokenize_skips_block_comment "int x; ".toList " x = 1;".toList " note ".toList _
      (by decide) (by decide) (by decide) (by decide)).mpr (by decide)⟩

/-- C16 fails as stated: in `y +/* c */ z` the text before the comment has no
quote and no `/`, but its last character `+` takes the `/` as the second
character of an operator, so the comment is not recognised and the tokens
are `y`, `+/`, `*`, `c`, `*/`, `z` instead of `y`, `+`, `z`. -/
theorem tokenize_block_comment_after_operator :
    (∀ x ∈ "y +".toList, x ≠ DQUOTE ∧ x ≠ SQUOTE ∧ x ≠ '/') ∧
    ¬ List.IsInfix "*/".toList " c ".toList ∧
    tokenize ("y +".toList ++ "/*".toList ++ " c ".toList ++ "*/".toList ++ " z".toList) =
      some [⟨TokenType.IDENTIFIER, "y".toList⟩, ⟨TokenType.OPERATOR, "+/".toList⟩,
       ⟨TokenType.OPERATOR, "*".toList⟩, ⟨TokenType.IDENTIFIER, "c".toList⟩,
       ⟨TokenType.OPERATOR, "*/".toList⟩, ⟨TokenType.IDENTIFIER, "z".toList⟩] ∧
    tokenize ("y +".toList ++ " ".toList ++ " z".toList) =
      some [⟨TokenType.IDENTIFIER, "y".toList⟩, ⟨TokenType.OPERATOR, "+".toList⟩,
       ⟨TokenType.IDENTIFIER, "z".toList⟩] ∧
    tokenize ("y +".toList ++ "/*".toList ++ " c ".toList ++ "*/".toList ++ " z".toList) ≠
      tokenize ("y +".toList ++ " ".toList ++ " z".toList) := by
  decide
/-! ## Ambiguous n-gram strings -/

/-- C17, at a failing input: the token windows of `a | ||` and of `a || |`
give the same n-gram string `a||||||`, although their second lexemes `|` and
`||` differ (and so do their third). -/
theorem ngram_string_ambiguous :
    tokenize "a | ||".toList =
      some [⟨TokenType.IDENTIFIER, "a".toList⟩, ⟨TokenType.OPERATOR, "|".toList⟩,
       ⟨TokenType.OPERATOR, "||".toList⟩] ∧
    tokenize "a || |".toList =
      some [⟨TokenType.IDENTIFIER, "a".toList⟩, ⟨TokenType.OPERATOR, "||".toList⟩,
       ⟨TokenType.OPERATOR, "|".toList⟩] ∧
    generateNgrams [⟨TokenType.IDENTIFIER, "a".toList⟩, ⟨TokenType.OPERATOR, "|".toList⟩,
       ⟨TokenType.OPERATOR, "||".toList⟩] 3 = ["a||||||".toList] ∧
    generateNgrams [⟨TokenType.IDENTIFIER, "a".toList⟩, ⟨TokenType.OPERATOR, "||".toList⟩,
       ⟨TokenType.OPERATOR, "|".toList⟩] 3 = ["a||||||".toList] ∧
    "|".toList ≠ "||".toList := by
  decide

/-! ## Every emitted token is well formed -/

/-- C18: every token of a sequence that `tokenize` returns is a Keyword, an Identifier, an
Operator, a Literal or a Separator; a Literal's lexeme is `STR` or `NUM`; a
Keyword's lexeme is in the keyword table and an Identifier's is not; an
Operator's lexeme is one or two operator characters; a Separator's lexeme is
one separator character. -/
theorem tokenize_tokens_well_formed (code : List Char) (ts : TokenList) (tok : Token)
    (hts : tokenize code = some ts) (h : tok ∈ ts) :
    (tok.type = TokenType.KEYWORD ∨ tok.type = TokenType.IDENTIFIER ∨
      tok.type = TokenType.OPERATOR ∨ tok.type = TokenType.LITERAL ∨
      tok.type = TokenType.SEPARATOR) ∧
    (tok.type = TokenType.LITERAL → tok.value = "STR".toList ∨ tok.value = "NUM".toList) ∧
    (tok.type = TokenType.KEYWORD → tok.value ∈ keywords ∧ isKeyword tok.value = true) ∧
    (tok.type = TokenType.IDENTIFIER → tok.value ∉ keywords ∧ isKeyword tok.value = false) ∧
    (tok.type = TokenType.OPERATOR →
      (tok.value.length = 1 ∨ tok.value.length = 2) ∧
      ∀ c ∈ tok.value, isOperatorChar c = true) ∧
    (tok.type = TokenType.SEPARATOR → ∃ c, tok.value = [c] ∧ isSeparator c = true) := by
  have hw := (tokenize_ok code ts hts).2 tok h
  obtain ⟨type, value⟩ := tok
  cases type with
  | KEYWORD =>
    simp only [wellFormedToken] at hw
    simp [hw, mem_keywords_of_isKeyword hw]
  | IDENTIFIER =>
    simp only [wellFormedToken, Bool.and_eq_true, Bool.not_eq_true'] at hw
    have hk : value ∉ keywords := by
      intro hmem
      have : isKeyword value = true := by
        simp only [isKeyword, List.any_eq_true, beq_iff_eq]
        exact ⟨value, hmem, rfl⟩
      rw [hw.1.1] at this
      exact Bool.noConfusion this
    simp [hw.1.1, hk]
  | OPERATOR =>
    simp only [wellFormedToken, Bool.and_eq_true, Bool.or_eq_true, beq_iff_eq,
      List.all_eq_true] at hw
    simp only [true_or, or_true, true_implies, false_implies, and_true, true_and,
      reduceCtorEq]
    exact hw
  | LITERAL =>
    simp only [wellFormedToken, Bool.or_eq_true, beq_iff_eq] at hw
    simp only [true_or, or_true, true_implies, false_implies, and_true, true_and,
      reduceCtorEq]
    exact hw
  | SEPARATOR =>
    simp only [wellFormedToken, Bool.and_eq_true, beq_iff_eq, List.all_eq_true] at hw
    obtain ⟨hlen, hall⟩ := hw
    obtain ⟨c, rfl⟩ := List.length_eq_one.mp hlen
    simp only [true_or, or_true, true_implies, false_implies, and_true, true_and,
      reduceCtorEq]
    exact ⟨c, rfl, hall c (List.mem_singleton.mpr rfl)⟩
  | COMMENT => simp [wellFormedToken] at hw
  | WHITESPACE => simp [wellFormedToken] at hw
  | UNKNOWN => simp [wellFormedToken] at hw

/-- A token to which C18 applies: the Keyword `int` of `int x = 5;`. -/
theorem tokenize_tokens_well_formed_witness :
    tokenize "int x = 5;".toList =
      some [⟨TokenType.KEYWORD, "int".toList⟩, ⟨TokenType.IDENTIFIER, "x".toList⟩,
        ⟨TokenType.OPERATOR, "=".toList⟩, ⟨TokenType.LITERAL, "NUM".toList⟩,
        ⟨TokenType.SEPARATOR, ";".toList⟩] ∧
    "int".toList ∈ keywords :=
  ⟨by decide, ((tokenize_tokens_well_formed "int x = 5;".toList
    [⟨TokenType.KEYWORD, "int".toList⟩, ⟨TokenType.IDENTIFIER, "x".toList⟩,
      ⟨TokenType.OPERATOR, "=".toList⟩, ⟨TokenType.LITERAL, "NUM".toList⟩,
      ⟨TokenType.SEPARATOR, ";".toList⟩]
    ⟨TokenType.KEYWORD, "int".toList⟩ (by decide) (by decide)).2.2.1 rfl).1⟩

/-! ## Token equality -/

theorem tokenEq_iff (x y : Token) : tokenEq x y = true ↔ x = y := by
  obtain ⟨t1, v1⟩ := x
  obtain ⟨t2, v2⟩ := y
  simp only [tokenEq, Bool.and_eq_true, beq_iff_eq, Token.mk.injEq]
  exact and_comm

/-! ## The LCS table holds the length of a longest common subsequence -/

section LongestCommonSubsequence

open List

theorem take_succ_of_lt {α : Type} (l : List α) (i : Nat) (h : i < l.length) :
    l.take (i + 1) = l.take i ++ [l[i]] := by
  rw [List.take_succ, List.getElem?_eq_getElem h]
  rfl

theorem sublist_concat_cases {α : Type} (s l : List α) (x : α) (h : s <+ l ++ [x]) :
    s <+ l ∨ ∃ k, s = k ++ [x] ∧ k <+ l := by
  obtain ⟨k1, k2, rfl, h1, h2⟩ := List.sublist_append_iff.mp h
  cases h2 with
  | cons _ h3 =>
    have := List.sublist_nil.mp h3
    subst this
    exact Or.inl (by simpa using h1)
  | cons₂ _ h3 =>
    have := List.sublist_nil.mp h3
    subst this
    exact Or.inr ⟨k1, rfl, h1⟩

theorem matchAt_succ {α : Type} (eq : α → α → Bool) (a b : List α) (i j : Nat)
    (hi : i < a.length) (hj : j < b.length) :
    matchAt eq a b (i + 1) (j + 1) = eq a[i] b[j] := by
  simp only [matchAt, Nat.add_sub_cancel, List.getElem?_eq_getElem hi,
    List.getElem?_eq_getElem hj]

theorem lcsRec_spec {α : Type} (eq : α → α → Bool) (heq : ∀ x y, eq x y = true ↔ x = y)
    (a b : List α) :
    ∀ i j, i ≤ a.length → j ≤ b.length →
      (∃ s, s <+ a.take i ∧ s <+ b.take j ∧ s.length = lcsRec eq a b i j) ∧
      (∀ s, s <+ a.take i → s <+ b.take j → s.length ≤ lcsRec eq a b i j) := by
  intro i
  induction i with
  | zero =>
    intro j _ _
    rw [lcsRec_zero_left]
    refine ⟨⟨[], by simp, by simp, rfl⟩, ?_⟩
    intro s hs _
    simp only [List.take_zero, List.sublist_nil] at hs
    simp [hs]
  | succ i ih =>
    intro j
    induction j with
    | zero =>
      intro _ _
      rw [lcsRec_zero_right]
      refine ⟨⟨[], by simp, by simp, rfl⟩, ?_⟩
      intro s _ hs
      simp only [List.take_zero, List.sublist_nil] at hs
      simp [hs]
    | succ j ihj =>
      intro hi hj
      have hi2 : i < a.length := by omega
      have hj2 : j < b.length := by omega
      obtain ⟨⟨s00, h00a, h00b, h00l⟩, u00⟩ := ih j (by omega) (by omega)
      obtain ⟨⟨s01, h01a, h01b, h01l⟩, u01⟩ := ih (j + 1) (by omega) hj
      obtain ⟨⟨s10, h10a, h10b, h10l⟩, u10⟩ := ihj hi (by omega)
      have ta := take_succ_of_lt a i hi2
      have tb := take_succ_of_lt b j hj2
      rw [lcsRec_succ, matchAt_succ eq a b i j hi2 hj2]
      by_cases hm : eq a[i] b[j] = true
      · have hxy : a[i] = b[j] := (heq _ _).mp hm
        rw [if_pos hm]
        constructor
        · refine ⟨s00 ++ [a[i]], ?_, ?_, by simp [h00l]⟩
          · rw [ta]
            exact List.Sublist.append h00a (List.Sublist.refl _)
          · rw [tb, hxy]
            exact List.Sublist.append h00b (List.Sublist.refl _)
        · intro s hsa hsb
          rw [ta] at hsa
          rw [tb] at hsb
          rcases sublist_concat_cases s _ _ hsa with ha | ⟨k, rfl, hk⟩
          · rcases sublist_concat_cases s _ _ hsb with hb | ⟨m, rfl, hmb⟩
            · have := u00 s ha hb
              omega
            · have hma : m <+ a.take i := (List.sublist_append_left m [b[j]]).trans ha
              have := u00 m hma hmb
              simp only [List.length_append, List.length_singleton]
              omega
          · rcases sublist_concat_cases _ _ _ hsb with hb | ⟨m, e, hmb⟩
            · have hkb : k <+ b.take j := (List.sublist_append_left k [a[i]]).trans hb
              have := u00 k hk hkb
              simp only [List.length_append, List.length_singleton]
              omega
            · have hkm : k = m := List.append_inj_left' e rfl
              subst hkm
              have := u00 k hk hmb
              simp only [List.length_append, List.length_singleton]
              omega
      · rw [if_neg hm]
        have upper : ∀ s, s <+ a.take (i + 1) → s <+ b.take (j + 1) →
            s.length ≤ lcsRec eq a b i (j + 1) ∨ s.length ≤ lcsRec eq a b (i + 1) j := by
          intro s hsa hsb
          have hsa2 := hsa
          have hsb2 := hsb
          rw [ta] at hsa2
          rw [tb] at hsb2
          rcases sublist_concat_cases s _ _ hsa2 with ha | ⟨k, rfl, hk⟩
          · exact Or.inl (u01 s ha hsb)
          · rcases sublist_concat_cases _ _ _ hsb2 with hb | ⟨m, e, _⟩
            · exact Or.inr (u10 _ hsa hb)
            · exfalso
              have hxy : a[i] = b[j] := by
                have := List.append_inj_right' e rfl
                simpa using this
              exact hm ((heq _ _).mpr hxy)
        by_cases hgt : lcsRec eq a b i (j + 1) > lcsRec eq a b (i + 1) j
        · rw [if_pos hgt]
          constructor
          · exact ⟨s01, h01a.trans (List.take_sublist_take_left a (by omega)), h01b, h01l⟩
          · intro s hsa hsb
            rcases upper s hsa hsb with h | h <;> omega
        · rw [if_neg hgt]
          constructor
          · exact ⟨s10, h10a, h10b.trans (List.take_sublist_take_left b (by omega)), h10l⟩
          · intro s hsa hsb
            rcases upper s hsa hsb with h | h <;> omega

/-- C19: for non-empty token sequences the table value `dp[m][n]` of
`lcsDistance` is the length of a longest common subsequence under token
equality: some common subsequence has that length and none is longer; and
`lcsDistance` returns `2 * dp[m][n] / (m + n)`. -/
theorem lcsDistance_is_longest_common_subsequence (t1 t2 : TokenList) (h1 : t1 ≠ [])
    (h2 : t2 ≠ []) :
    (∃ s : TokenList, s <+ t1 ∧ s <+ t2 ∧
      s.length = lcsTable tokenEq t1 t2 t1.length t2.length) ∧
    (∀ s : TokenList, s <+ t1 → s <+ t2 →
      s.length ≤ lcsTable tokenEq t1 t2 t1.length t2.length) ∧
    lcsDistance t1 t2 =
      (2 * (lcsTable tokenEq t1 t2 t1.length t2.length : ℝ)) /
        ((t1.length + t2.length : ℕ) : ℝ) := by
  have hl1 : 0 < t1.length := List.length_pos.mpr h1
  have hl2 : 0 < t2.length := List.length_pos.mpr h2
  have hspec := lcsRec_spec tokenEq tokenEq_iff t1 t2 t1.length t2.length le_rfl le_rfl
  rw [List.take_length, List.take_length,
    ← lcsTable_eq_lcsRec tokenEq t1 t2 _ _ le_rfl le_rfl] at hspec
  exact ⟨hspec.1, hspec.2, lcsDistance_eval t1 t2 _ _ _ rfl rfl ⟨hl1, hl2⟩ rfl⟩

/-- Two non-empty sequences to which C19 applies: the tokens of `a b c d` and
of `b x d c`, whose table value is 2. -/
theorem lcsDistance_is_longest_common_subsequence_witness :
    ∃ A B : TokenList, tokenize "a b c d".toList = some A ∧
      tokenize "b x d c".toList = some B ∧ lcsTable tokenEq A B 4 4 = 2 ∧
      ∃ s : TokenList, s <+ A ∧ s <+ B ∧
        s.length = lcsTable tokenEq A B A.length B.length :=
  ⟨[⟨TokenType.IDENTIFIER, "a".toList⟩, ⟨TokenType.IDENTIFIER, "b".toList⟩,
      ⟨TokenType.IDENTIFIER, "c".toList⟩, ⟨TokenType.IDENTIFIER, "d".toList⟩],
    [⟨TokenType.IDENTIFIER, "b".toList⟩, ⟨TokenType.IDENTIFIER, "x".toList⟩,
      ⟨TokenType.IDENTIFIER, "d".toList⟩, ⟨TokenType.IDENTIFIER, "c".toList⟩],
    by decide, by decide, by decide,
    (lcsDistance_is_longest_common_subsequence _ _ (by decide) (by decide)).1⟩

end LongestCommonSubsequence

/-! ## The edit distance is zero exactly on equal sequences -/

theorem editRec_eq_zero {α : Type} (eq : α → α → Bool) (a b : List α) :
    ∀ i j, editRec eq a b i j = 0 →
      i = j ∧ ∀ k, k < i → matchAt eq a b (k + 1) (k + 1) = true := by
  intro i
  induction i with
  | zero =>
    intro j h
    rw [editRec_zero_left] at h
    exact ⟨h.symm, fun k hk => absurd hk (Nat.not_lt_zero k)⟩
  | succ i ih =>
    intro j h
    cases j with
    | zero =>
      rw [editRec_zero_right] at h
      omega
    | succ j =>
      rw [editRec_succ, min3_eq] at h
      by_cases hm : matchAt eq a b (i + 1) (j + 1) = true
      · rw [if_pos hm] at h
        have h0 : editRec eq a b i j = 0 := by omega
        obtain ⟨hij, hall⟩ := ih j h0
        subst hij
        refine ⟨rfl, ?_⟩
        intro k hk
        rcases Nat.lt_succ_iff_lt_or_eq.mp hk with h1 | rfl
        · exact hall k h1
        · exact hm
      · rw [if_neg hm] at h
        omega

theorem eq_of_matchAt {α : Type} (eq : α → α → Bool) (heq : ∀ x y, eq x y = true ↔ x = y)
    (a b : List α) (hlen : a.length = b.length)
    (h : ∀ k, k < a.length → matchAt eq a b (k + 1) (k + 1) = true) : a = b := by
  apply List.ext_getElem hlen
  intro k h1 h2
  have := h k h1
  simp only [matchAt, Nat.add_sub_cancel, List.getElem?_eq_getElem h1,
    List.getElem?_eq_getElem h2] at this
  exact (heq _ _).mp this

theorem editTable_eq_zero_iff (t1 t2 : TokenList) :
    editTable tokenEq t1 t2 t1.length t2.length = 0 ↔ t1 = t2 := by
  constructor
  · intro h
    rw [editTable_eq_editRec tokenEq t1 t2 _ _ le_rfl le_rfl] at h
    obtain ⟨hlen, hall⟩ := editRec_eq_zero tokenEq t1 t2 _ _ h
    exact eq_of_matchAt tokenEq tokenEq_iff t1 t2 hlen hall
  · rintro rfl
    exact editTable_self tokenEq tokenEq_refl t1

/-- C20: the edit-distance similarity of two token sequences is 1 exactly
when the sequences are identical, and the Levenshtein table value `dp[m][n]`
is 0 exactly when they are. -/
theorem editDistance_one_iff_identical (t1 t2 : TokenList) :
    (editDistance t1 t2 = 1 ↔ t1 = t2) ∧
    (editTable tokenEq t1 t2 t1.length t2.length = 0 ↔ t1 = t2) := by
  refine ⟨?_, editTable_eq_zero_iff t1 t2⟩
  constructor
  · intro h
    by_cases h1 : t1.length = 0
    · by_cases h2 : t2.length = 0
      · rw [List.length_eq_zero.mp h1, List.length_eq_zero.mp h2]
      · exfalso
        simp [editDistance, h1, h2] at h
    · by_cases h2 : t2.length = 0
      · exfalso
        simp [editDistance, h1, h2] at h
      · rw [editDistance_eval t1 t2 _ _ _ rfl rfl ⟨by omega, by omega⟩ rfl] at h
        have hmax : ((max t1.length t2.length : ℕ) : ℝ) ≠ 0 := by
          have : 0 < max t1.length t2.length := by omega
          exact_mod_cast this.ne'
        have hd : (editTable tokenEq t1 t2 t1.length t2.length : ℝ) /
            ((max t1.length t2.length : ℕ) : ℝ) = 0 := by linarith
        rw [div_eq_zero_iff] at hd
        rcases hd with hd | hd
        · exact (editTable_eq_zero_iff t1 t2).mp (by exact_mod_cast hd)
        · exact absurd hd hmax
  · rintro rfl
    exact editDistance_self t1

end PlagiarismDetect
